import Mathlib

/-!
Verification development for the crawl-and-filter subsystem of the
marketing-research pipeline (webfill.py and youtube.py).

The Python sources are shallowly embedded into Lean:
* pure helpers become Lean functions on `List Char` (Python `str`);
* float-valued delays/similarities are modelled as exact rationals
  (the claims under study concern order/threshold logic, and the
  constants involved, not rounding);
* wall-clock times are naturals passed explicitly to each call;
* fallible external calls (YouTube API, langdetect, the embedder)
  are oracle parameters returning `Except`.
-/

set_option linter.unusedVariables false

/-! ### Circuit breaker (webfill.py, class CircuitBreaker, lines 43-74) -/

/-- The three states of `CircuitBreaker.state` ('closed', 'open', 'half-open').
`opened` stands for the Python string 'open' (`open` is a Lean keyword). -/
inductive CBMode where
  | closed
  | opened
  | halfOpen
deriving DecidableEq

/-- Mirror of the Python `CircuitBreaker` attributes.  `last_failure_time`
is `None` in Python until the first failure; it is read only in the
`open` state, which is entered only after a failure has recorded a real
time, so it is modelled as a `Nat` initialised to `0`. -/
structure CircuitBreaker where
  failure_threshold : Nat
  recovery_timeout : Nat
  failure_count : Nat
  last_failure_time : Nat
  state : CBMode
deriving DecidableEq

/-- `CircuitBreaker.__init__(failure_threshold, recovery_timeout)`. -/
def CircuitBreaker.init (ft rt : Nat) : CircuitBreaker :=
  { failure_threshold := ft, recovery_timeout := rt
    failure_count := 0, last_failure_time := 0, state := .closed }

/-- Result of one `CircuitBreaker.call`: the wrapped function ran and
returned (`success`), ran and raised (`failure`, the exception is
re-raised), or was never invoked because the breaker raised the
distinguished "Circuit breaker is OPEN" error (`rejected`). -/
inductive CallOutcome where
  | success
  | failure
  | rejected
deriving DecidableEq

/-- The `try: result = func(...) ... except:` block of
`CircuitBreaker.call`, executed once the open-state guard has been
passed.  On success, only a half-open breaker is reset; on failure the
counter is incremented, the failure time stamped, and the breaker trips
to `open` when the counter reaches the threshold. -/
def CircuitBreaker.proceed (cb : CircuitBreaker) (now : Nat) (ok : Bool) :
    CircuitBreaker × CallOutcome :=
  if ok then
    match cb.state with
    | .halfOpen => ({ cb with state := .closed, failure_count := 0 }, .success)
    | _ => (cb, .success)
  else
    let cb2 := { cb with failure_count := cb.failure_count + 1,
                         last_failure_time := now }
    if cb2.failure_threshold ≤ cb2.failure_count then
      ({ cb2 with state := .opened }, .failure)
    else (cb2, .failure)

/-- Mirror of `CircuitBreaker.call(func, ...)`.  `now` is the value of
`time.time()` during the call (Python reads the clock twice within one
call; the sub-second drift between the reads is irrelevant to the
threshold logic and both reads are modelled by `now`).  `ok` tells
whether `func` would return normally or raise.  Natural subtraction
truncates at 0 exactly where the Python float difference would be
negative; both fail the strict `>` test. -/
def CircuitBreaker.call (cb : CircuitBreaker) (now : Nat) (ok : Bool) :
    CircuitBreaker × CallOutcome :=
  match cb.state with
  | .opened =>
    if cb.recovery_timeout < now - cb.last_failure_time then
      CircuitBreaker.proceed { cb with state := .halfOpen } now ok
    else (cb, .rejected)
  | .closed => CircuitBreaker.proceed cb now ok
  | .halfOpen => CircuitBreaker.proceed cb now ok

/-- Run a sequence of calls (each event is a clock reading paired with
whether the wrapped function would succeed).  Returns the final breaker
state and the number of times the wrapped function was actually invoked
(calls rejected by an open breaker do not invoke it). -/
def CircuitBreaker.run (cb : CircuitBreaker) :
    List (Nat × Bool) → CircuitBreaker × Nat
  | [] => (cb, 0)
  | (t, ok) :: evs =>
    let r := cb.call t ok
    let rest := r.1.run evs
    (rest.1, (if r.2 = CallOutcome.rejected then 0 else 1) + rest.2)

/-- Number of failing events in a call trace. -/
def numFails (evs : List (Nat × Bool)) : Nat :=
  (evs.filter (fun e => !e.2)).length

/-- Time of the last failing event in a trace, defaulting to `lt`. -/
def lastFailT (lt : Nat) : List (Nat × Bool) → Nat
  | [] => lt
  | (t, ok) :: evs => lastFailT (if ok then lt else t) evs

inductive CBReach (ft rt : Nat) : CircuitBreaker → Prop where
  | init : CBReach ft rt (CircuitBreaker.init ft rt)
  | step (cb : CircuitBreaker) (now : Nat) (ok : Bool) :
      CBReach ft rt cb → CBReach ft rt (cb.call now ok).1

/-- `self.min_delay = 2.0` (minimum delay between requests). -/
def min_delay : ℚ := 2

/-- `self.adaptive_delay = 2.0` (initial adaptive delay). -/
def initial_adaptive_delay : ℚ := 2

/-- The three events that update `adaptive_delay`: a successful request
(`_make_request`), a detected rate-limit response, and a circuit-breaker
trip (both in the error handler of `scrape_page`). -/
inductive RateEvent where
  | success
  | rateLimit
  | cbTrip

/-- The update applied to `self.adaptive_delay` by each event:
success: `max(self.adaptive_delay * 0.9, self.min_delay)`;
rate limit: `min(self.adaptive_delay * 2, 15.0)`;
circuit-breaker trip: `min(self.adaptive_delay * 1.5, 10.0)`. -/
def adaptStep (ad : ℚ) : RateEvent → ℚ
  | .success => max (ad * (9 / 10)) min_delay
  | .rateLimit => min (ad * 2) 15
  | .cbTrip => min (ad * (3 / 2)) 10

/-- The adaptive delay after any sequence of update events, starting
from the initial delay. -/
def adaptRun (evs : List RateEvent) : ℚ :=
  evs.foldl adaptStep initial_adaptive_delay

/-- `smart_delay`: with `lastT` the per-host `last_request_time`, `now`
the current clock and `ad` the adaptive delay, returns the time at
which the request is issued (idealised `time.sleep`: sleeping
`delay_needed` seconds advances the clock by exactly that amount, and
the post-sleep `time.time()` read is stored as the new
`last_request_time`). -/
def smart_delay (lastT now ad : ℚ) : ℚ :=
  if 0 < ad - (now - lastT) then lastT + ad else now

/-- Classification of an exception raised by `request.execute()`,
matching the three `except` clauses in order: `HttpError` (with
the status of its response, if any), the network family
`socket.timeout` / `TimeoutError` / `OSError`, and any other
exception (caught by the final generic `except Exception`). -/
inductive YtErr where
  | http (status : Option Nat)
  | net
  | other
deriving DecidableEq

/-- `_is_retryable_http_error`: `status in (500, 502, 503, 504)`
(`None` is not in the tuple). -/
def isRetryableStatus : Option Nat → Bool
  | some s => s == 500 || s == 502 || s == 503 || s == 504
  | none => false

/-- Whether a raised exception is caught by a handler that records it
in `last_err` and continues the loop: an `HttpError` only when
retryable (otherwise it is re-raised immediately), while the network
handler and the final generic `except Exception` handler always record
and continue. -/
def recordsAndRetries : YtErr → Bool
  | .http s => isRetryableStatus s
  | .net => true
  | .other => true

/-- Mirror of the `for attempt in range(tries)` loop of
`execute_with_retry`.  `fuel` is the number of remaining attempts and
`attempt` the current index; `request i` gives the outcome of the
`i`-th `request.execute()`.  Returns the result (or the raised error),
the number of executions performed, and the list of `time.sleep`
backoff durations (`backoff ** attempt` with `backoff = 2.0`).  A
raised error of `none` models Python raising `last_err = None` when
`tries = 0`.  The sleep guard `attempt < tries - 1` holds exactly when
at least one attempt remains after the current one, i.e. `1 ≤ fuel`
for the post-attempt fuel. -/
def retryGo {α : Type} (request : Nat → Except YtErr α) (attempt : Nat) :
    Nat → Option YtErr → Except (Option YtErr) α × Nat × List ℚ
  | 0, last => (.error last, 0, [])
  | fuel + 1, _ =>
    match request attempt with
    | .ok v => (.ok v, 1, [])
    | .error e =>
      if recordsAndRetries e then
        let rest := retryGo request (attempt + 1) fuel (some e)
        (rest.1, rest.2.1 + 1,
          (if 1 ≤ fuel then [(2 : ℚ) ^ attempt] else []) ++ rest.2.2)
      else (.error (some e), 1, [])

/-- `execute_with_retry(request, tries)` (backoff = 2.0 as in the
Python default, which no caller overrides). -/
def execute_with_retry {α : Type} (request : Nat → Except YtErr α)
    (tries : Nat) : Except (Option YtErr) α × Nat × List ℚ :=
  retryGo request 0 tries none

/-- `\s` / `str.isspace()` on the ASCII range: space, tab, newline,
carriage return, vertical tab, form feed. -/
def pyIsSpace (c : Char) : Bool :=
  c == ' ' || c == '\t' || c == '\n' || c == '\r' || c == '\x0b' || c == '\x0c'

/-- The substitution `re.sub(r"\s+", " ", s)`: collapse every maximal
whitespace run to a single space. -/
def collapseWs : List Char → List Char
  | [] => []
  | c :: rest =>
    if pyIsSpace c then ' ' :: collapseWs (rest.dropWhile pyIsSpace)
    else c :: collapseWs rest
termination_by s => s.length
decreasing_by
  · simp_wf
    have := List.Sublist.length_le (List.dropWhile_sublist pyIsSpace (l := rest))
    omega
  · simp_wf

/-- `str.strip()` (whitespace at both ends). -/
def pyStrip (s : List Char) : List Char :=
  ((s.dropWhile pyIsSpace).reverse.dropWhile pyIsSpace).reverse

/-- youtube.py `normalize(s)`: `re.sub(r"\s+", " ", s or "").strip()`. -/
def yt_normalize (s : List Char) : List Char :=
  pyStrip (collapseWs s)

/-- `str.lower()` restricted to ASCII. -/
def asciiLowerChar (c : Char) : Char :=
  if 'A' ≤ c ∧ c ≤ 'Z' then Char.ofNat (c.toNat + 32) else c

def asciiLower (s : List Char) : List Char := s.map asciiLowerChar

/-- youtube.py `tolc(s)`: `normalize(s).lower()`. -/
def tolc (s : List Char) : List Char := asciiLower (yt_normalize s)

/-- The Python substring test `needle in hay`. -/
def containsSub : List Char → List Char → Bool
  | [], needle => needle.isEmpty
  | c :: t, needle => needle.isPrefixOf (c :: t) || containsSub t needle

/-- `\w` on the ASCII range: letters, digits, underscore. -/
def isWordChar (c : Char) : Bool := c.isAlphanum || c == '_'

/-- `marker` immediately followed by a word character occurs in `s`
(the patterns `#\w+` and `@\w+`). -/
def hasMarkerWord (marker : Char) : List Char → Bool
  | [] => false
  | [_] => false
  | c :: d :: rest => (c == marker && isWordChar d) || hasMarkerWord marker (d :: rest)

/-- The word `w` occurs at the head of `s` with a word boundary after it. -/
def wordAtHere (w s : List Char) : Bool :=
  w.isPrefixOf s &&
    (match s.drop w.length with
     | [] => true
     | d :: _ => !isWordChar d)

/-- Scan for a word-boundary occurrence of `w` (the pattern `\b w \b`);
`prevIsWord` records whether the previous character was a word
character. -/
def hasWordAux (w : List Char) (prevIsWord : Bool) : List Char → Bool
  | [] => !prevIsWord && wordAtHere w []
  | c :: rest =>
    (!prevIsWord && wordAtHere w (c :: rest)) || hasWordAux w (isWordChar c) rest

def hasWordMatch (w s : List Char) : Bool := hasWordAux w false s

/-! ### Comment quality filter (youtube.py, `looks_meaningful` and
`GENERIC_TRASH_PATTERNS`, lines 74-78 and 227-242) -/

/-- `MIN_WORDS = int(os.getenv("YT_MIN_WORDS", "6"))` (default). -/
def MIN_WORDS : Nat := 6

/-- `MIN_CHARS = int(os.getenv("YT_MIN_CHARS", "25"))` (default). -/
def MIN_CHARS : Nat := 25

/-- `str.split()` with no argument: split on whitespace runs, dropping
empty pieces. -/
def pySplitWs : List Char → List (List Char)
  | [] => []
  | c :: rest =>
    if pyIsSpace c then pySplitWs rest
    else (c :: rest.takeWhile (fun d => !pyIsSpace d)) ::
      pySplitWs (rest.dropWhile (fun d => !pyIsSpace d))
termination_by s => s.length
decreasing_by
  · simp_wf
  · simp_wf
    have := List.Sublist.length_le
      (List.dropWhile_sublist (fun d => !pyIsSpace d) (l := rest))
    omega

/-- `GENERIC_TRASH_PATTERNS`, each regex translated to an executable
test (`re.search` on `tlc`, which is already lowercase, has no trailing
newline, and is anchored by `^`/`$` where the pattern requires):
`subscribe`, `follow me`, `check (out )?my channel`, `giveaway`,
`http[s]?://`, `www\.`, `#\w+`, `@\w+`, `\b(?:like|share|comment)\b`,
`^nice( video)?!?$`, `^cool!?$`, `^awesome!?$`, `^first!?$`, `^lol!?$`. -/
def matchesTrash (t : List Char) : Bool :=
  containsSub t ("subscribe".toList) ||
  containsSub t ("follow me".toList) ||
  containsSub t ("check my channel".toList) ||
  containsSub t ("check out my channel".toList) ||
  containsSub t ("giveaway".toList) ||
  containsSub t ("http://".toList) ||
  containsSub t ("https://".toList) ||
  containsSub t ("www.".toList) ||
  hasMarkerWord '#' t ||
  hasMarkerWord '@' t ||
  hasWordMatch ("like".toList) t ||
  hasWordMatch ("share".toList) t ||
  hasWordMatch ("comment".toList) t ||
  (t == "nice".toList || t == "nice!".toList ||
   t == "nice video".toList || t == "nice video!".toList) ||
  (t == "cool".toList || t == "cool!".toList) ||
  (t == "awesome".toList || t == "awesome!".toList) ||
  (t == "first".toList || t == "first!".toList) ||
  (t == "lol".toList || t == "lol!".toList)

/-- `looks_meaningful(text)`.  The non-alphanumeric ratio test
`count / max(1, len) > 0.4` is modelled as the exact rational
comparison `5 * count > 2 * max 1 len`. -/
def looks_meaningful (text : List Char) : Bool :=
  if text.length < MIN_CHARS then false
  else if (pySplitWs text).length < MIN_WORDS then false
  else if 5 * (text.filter (fun c => !c.isAlphanum && !pyIsSpace c)).length >
      2 * max 1 text.length then false
  else !matchesTrash (tolc text)

/-! ### Keyword extraction (youtube.py, `STOPWORDS` and
`extract_keywords`, lines 46-51 and 123-125) -/

/-- The `STOPWORDS` set (the triple-quoted string split on whitespace). -/
def STOPWORDS : List (List Char) :=
  ["the", "a", "an", "and", "or", "for", "to", "of", "in", "on", "with",
   "by", "from", "into", "at", "over", "under", "about", "as", "is",
   "are", "was", "were", "be", "been", "being", "this", "that", "those",
   "these", "it", "its", "how", "what", "why", "when", "where", "who",
   "which", "does", "do", "did", "has", "have", "had", "their", "them",
   "they", "you", "we", "i", "your", "our", "ours", "his", "her",
   "hers", "him", "he", "she", "brand", "brands", "product", "products",
   "pricing", "price", "compare", "comparison", "unique", "selling",
   "proposition", "usp", "reviews", "review", "testimonial",
   "testimonials", "pain", "points"].map String.toList

/-- A character that can continue a `[a-zA-Z][a-zA-Z\-]+` token. -/
def isTokChar (c : Char) : Bool := c.isAlpha || c == '-'

/-- Left-to-right scan of `re.findall(r"[a-zA-Z][a-zA-Z\-]+", s)`:
at a letter followed by at least one token character, the maximal run
is one match and scanning resumes after it. -/
def scanTokens : List Char → List (List Char)
  | [] => []
  | c :: rest =>
    if c.isAlpha && (match rest with | d :: _ => isTokChar d | [] => false) then
      (c :: rest.takeWhile isTokChar) :: scanTokens (rest.dropWhile isTokChar)
    else scanTokens rest
termination_by s => s.length
decreasing_by
  · simp_wf
    have := List.Sublist.length_le (List.dropWhile_sublist isTokChar (l := rest))
    omega
  · simp_wf

/-- `extract_keywords(text)`: tokens of `tolc(text)` that are not
stopwords and are longer than 2 characters. -/
def extract_keywords (text : List Char) : List (List Char) :=
  (scanTokens (tolc text)).filter
    (fun t => !STOPWORDS.contains t && decide (2 < t.length))

/-! ### Semantic rerank (youtube.py, `fetch_relevant_comments`, the
block at lines 289-308).  Cosine similarities are supplied by the
embedder (an external collaborator) and modelled as exact rationals;
the stage under study is the sort / floor / cap selection applied to
them.  `pairs.sort(key=..., reverse=True)` is Python's stable sort in
descending score order, modelled by a stable insertion sort. -/

/-- Insert into a descending-sorted list: `x` goes in front of the
first element whose score is at most `x`'s (so, among equal scores, an
element originally earlier in the list stays first — the stability of
Python's sort). -/
def insertDesc {α : Type} (x : α × ℚ) : List (α × ℚ) → List (α × ℚ)
  | [] => [x]
  | y :: ys => if y.2 ≤ x.2 then x :: y :: ys else y :: insertDesc x ys

/-- Stable sort in descending score order
(`pairs.sort(key=lambda p: float(p[1]), reverse=True)`). -/
def sortPairsDesc {α : Type} : List (α × ℚ) → List (α × ℚ)
  | [] => []
  | x :: xs => insertDesc x (sortPairsDesc xs)

/-- The selection loop: `for c, s in pairs: if score >= min_similarity:
out.append(...); if len(out) >= max_comments: break`.  `k` is the
current `len(out)`. -/
def selectLoop {α : Type} (minSim : ℚ) (maxC : Nat) :
    List (α × ℚ) → Nat → List (α × ℚ)
  | [], _ => []
  | (c, s) :: rest, k =>
    if minSim ≤ s then
      (c, s) :: (if maxC ≤ k + 1 then [] else selectLoop minSim maxC rest (k + 1))
    else selectLoop minSim maxC rest k

/-- The semantic rerank stage: zip the surviving comments with their
similarities, sort descending (stably), then run the selection loop. -/
def semanticRerank {α : Type} (filtered : List α) (sims : List ℚ)
    (minSim : ℚ) (maxC : Nat) : List (α × ℚ) :=
  selectLoop minSim maxC (sortPairsDesc (filtered.zip sims)) 0

/-- One top-level comment as read from the API response
(`snippet.topLevelComment.snippet` with the `.get` defaults applied). -/
structure YtComment where
  text : List Char
  author : List Char
  likeCount : Nat
  publishedAt : List Char
deriving DecidableEq

/-- Outcome of the comment-thread fetch: the item list (a `none` item
models an entry whose nested dict access raises inside the per-item
`try`, which the `except Exception: continue` skips), an `HttpError`
escaping `execute_with_retry` (403 = comments disabled), or any other
exception. -/
inductive CommentFetch where
  | ok (items : List (Option YtComment))
  | httpErr (code : Option Nat)
  | failed

/-- `fetch_relevant_comments(video_id, brand, question, ...)`.
`detectLang` is `langdetect.detect` (`.error` covers both a
`LangDetectException` and any other exception, which the surrounding
handlers both turn into skipping the comment); `simsFor` maps the
surviving comment texts to their cosine similarities against the
question (`.error` = the embedding/similarity block raised).  `brand`
is accepted and unused, exactly as in the Python signature. -/
def fetch_relevant_comments
    (fetchRes : CommentFetch)
    (detectLang : List Char → Except Unit (List Char))
    (simsFor : List (List Char) → Except Unit (List ℚ))
    (brand question : List Char) (max_comments : Nat)
    (min_similarity : ℚ) : List (YtComment × ℚ) :=
  match fetchRes with
  | .httpErr _ => []
  | .failed => []
  | .ok items =>
    let raw := items.filterMap (fun it =>
      match it with
      | none => none
      | some c0 =>
        let txt := yt_normalize c0.text
        if !looks_meaningful txt then none
        else match detectLang txt with
          | .ok l => if l = "en".toList then some { c0 with text := txt }
                     else none
          | .error _ => none)
    if raw.isEmpty then []
    else
      let q_keywords := extract_keywords question
      let filtered := raw.filter
        (fun c => q_keywords.any (fun k => containsSub (tolc c.text) k))
      if filtered.isEmpty then []
      else
        match simsFor (filtered.map (fun c => c.text)) with
        | .error _ => []
        | .ok sims => semanticRerank filtered sims min_similarity max_comments

/-- UTF-8 encoding of a Unicode scalar value (a Lean `Char` value, as
is each element of a Python `str`). -/
def utf8Encode (n : Nat) : List Nat :=
  if n < 0x80 then [n]
  else if n < 0x800 then [0xC0 + n / 64, 0x80 + n % 64]
  else if n < 0x10000 then
    [0xE0 + n / 4096, 0x80 + (n / 64) % 64, 0x80 + n % 64]
  else [0xF0 + n / 262144, 0x80 + (n / 4096) % 64,
        0x80 + (n / 64) % 64, 0x80 + n % 64]

def isContByte (b : Nat) : Bool := 0x80 ≤ b && b < 0xC0

/-- U+FFFD, the replacement character of `errors='replace'`. -/
def replChar : Char := '�'

/-- Fuel-driven UTF-8 decoding loop: each step consumes at least one
byte and exactly one unit of fuel, so starting with `fuel = length`
the fuel never runs out.  Overlong encodings, surrogates and
out-of-range values are replaced (Python `errors='replace'`; the exact
number of replacement characters for a malformed run may differ from
CPython's handler, which never affects well-formed input). -/
def utf8DecodeGo : Nat → List Nat → List Char
  | _, [] => []
  | 0, _ :: _ => []
  | fuel + 1, b :: rest =>
    if b < 0x80 then Char.ofNat b :: utf8DecodeGo fuel rest
    else if b < 0xC2 then replChar :: utf8DecodeGo fuel rest
    else if b < 0xE0 then
      match rest with
      | c1 :: rest2 =>
        if isContByte c1 then
          Char.ofNat ((b - 0xC0) * 64 + (c1 - 0x80)) :: utf8DecodeGo fuel rest2
        else replChar :: utf8DecodeGo fuel rest
      | [] => [replChar]
    else if b < 0xF0 then
      match rest with
      | c1 :: c2 :: rest2 =>
        if isContByte c1 && isContByte c2 then
          if (b - 0xE0) * 4096 + (c1 - 0x80) * 64 + (c2 - 0x80) < 0x800 ||
             (0xD800 ≤ (b - 0xE0) * 4096 + (c1 - 0x80) * 64 + (c2 - 0x80) &&
              (b - 0xE0) * 4096 + (c1 - 0x80) * 64 + (c2 - 0x80) < 0xE000) then
            replChar :: utf8DecodeGo fuel rest
          else
            Char.ofNat ((b - 0xE0) * 4096 + (c1 - 0x80) * 64 + (c2 - 0x80)) ::
              utf8DecodeGo fuel rest2
        else replChar :: utf8DecodeGo fuel rest
      | _ => [replChar]
    else if b < 0xF5 then
      match rest with
      | c1 :: c2 :: c3 :: rest2 =>
        if isContByte c1 && isContByte c2 && isContByte c3 then
          if (b - 0xF0) * 262144 + (c1 - 0x80) * 4096 + (c2 - 0x80) * 64 +
              (c3 - 0x80) < 0x10000 ||
             0x110000 ≤ (b - 0xF0) * 262144 + (c1 - 0x80) * 4096 +
              (c2 - 0x80) * 64 + (c3 - 0x80) then
            replChar :: utf8DecodeGo fuel rest
          else
            Char.ofNat ((b - 0xF0) * 262144 + (c1 - 0x80) * 4096 +
              (c2 - 0x80) * 64 + (c3 - 0x80)) :: utf8DecodeGo fuel rest2
        else replChar :: utf8DecodeGo fuel rest
      | _ => [replChar]
    else replChar :: utf8DecodeGo fuel rest

/-- UTF-8 decoding of a byte list with replacement on malformed
input. -/
def utf8Decode (bs : List Nat) : List Char := utf8DecodeGo bs.length bs

/-! ### `urllib.parse.quote` / `unquote_plus` -/

/-- Characters `urllib.parse.quote` leaves unescaped with the default
`safe='/'`: ASCII alphanumerics, `_.-~` and `/`. -/
def safeChar (c : Char) : Bool :=
  c.isAlpha || c.isDigit || c == '_' || c == '.' || c == '-' ||
  c == '~' || c == '/'

/-- Uppercase hexadecimal digit for `n < 16` (quote emits uppercase). -/
def hexDigitU (n : Nat) : Char :=
  if n < 10 then Char.ofNat (48 + n) else Char.ofNat (55 + n)

def byteToHex (b : Nat) : List Char :=
  ['%', hexDigitU (b / 16), hexDigitU (b % 16)]

def quoteChar (c : Char) : List Char :=
  if safeChar c then [c] else (utf8Encode c.toNat).flatMap byteToHex

/-- `urllib.parse.quote(s, safe='/')`. -/
def pyQuote (s : List Char) : List Char := s.flatMap quoteChar

/-- Value of a hexadecimal digit character (either case), if any. -/
def hexVal (c : Char) : Option Nat :=
  if '0' ≤ c ∧ c ≤ '9' then some (c.toNat - 48)
  else if 'a' ≤ c ∧ c ≤ 'f' then some (c.toNat - 87)
  else if 'A' ≤ c ∧ c ≤ 'F' then some (c.toNat - 55)
  else none

/-- The scanning loop of `urllib.parse.unquote`: `buf` accumulates (in
reverse) the bytes of the current maximal `%XX` run, flushed through
the UTF-8 decoder at the end of the run; a `%` not followed by two hex
digits is literal. -/
def unquoteAux : List Char → List Nat → List Char
  | [], buf => utf8Decode buf.reverse
  | '%' :: h1 :: h2 :: rest, buf =>
    match hexVal h1, hexVal h2 with
    | some a, some b => unquoteAux rest ((16 * a + b) :: buf)
    | _, _ => utf8Decode buf.reverse ++ '%' :: unquoteAux (h1 :: h2 :: rest) []
  | c :: rest, buf => utf8Decode buf.reverse ++ c :: unquoteAux rest []

/-- `urllib.parse.unquote_plus`: replace `+` by space, then
percent-decode. -/
def unquotePlus (s : List Char) : List Char :=
  unquoteAux (s.map (fun c => if c = '+' then ' ' else c)) []

/-! ### `urllib.parse.urlparse` -/

/-- `scheme_chars`: ASCII letters, digits and `+-.`. -/
def schemeCh (c : Char) : Bool :=
  c.isAlpha || c.isDigit || c == '+' || c == '-' || c == '.'

def isC0OrSpace (c : Char) : Bool := c.toNat ≤ 32

/-- The WHATWG pre-processing of `urlsplit`: strip C0-control/space
characters from both ends, then remove every tab, CR and LF. -/
def urlPre (s : List Char) : List Char :=
  (((s.dropWhile isC0OrSpace).reverse.dropWhile isC0OrSpace).reverse).filter
    (fun c => !(c == '\t' || c == '\n' || c == '\r'))

/-- Scheme extraction: the text before the first `:` is the (lowercased)
scheme when it is nonempty, starts with an ASCII letter and consists of
scheme characters only; otherwise no scheme is split off. -/
def splitScheme (u : List Char) : List Char × List Char :=
  match u.findIdx? (fun c => c == ':') with
  | none => ([], u)
  | some i =>
    if decide (0 < i) && (u.take i).all schemeCh &&
        (match u.head? with | some c => c.isAlpha | none => false) then
      (asciiLower (u.take i), u.drop (i + 1))
    else ([], u)

def notNetlocEnd (c : Char) : Bool := !(c == '/' || c == '?' || c == '#')

/-- `_splitnetloc`: the netloc runs to the first of `/?#`. -/
def splitNetloc (u : List Char) : List Char × List Char :=
  (u.takeWhile notNetlocEnd, u.dropWhile notNetlocEnd)

/-- Split at the first occurrence of `sep` (`str.split(sep, 1)`); when
absent the second component is empty. -/
def splitAtFirst (sep : Char) (s : List Char) : List Char × List Char :=
  if s.contains sep then
    (s.takeWhile (fun c => c != sep), (s.dropWhile (fun c => c != sep)).tail)
  else (s, [])

/-- `_splitparams`: split `;params` off the last path segment (the
search for `;` starts at the last `/` when the path contains one). -/
def splitparams (p : List Char) : List Char × List Char :=
  if p.contains '/' then
    let revp := p.reverse
    let seg := (revp.takeWhile (fun c => c != '/')).reverse
    let front := (revp.dropWhile (fun c => c != '/')).reverse
    if seg.contains ';' then
      (front ++ seg.takeWhile (fun c => c != ';'),
       (seg.dropWhile (fun c => c != ';')).tail)
    else (p, [])
  else
    if p.contains ';' then
      (p.takeWhile (fun c => c != ';'), (p.dropWhile (fun c => c != ';')).tail)
    else (p, [])

/-- `uses_params` (the schemes for which `urlparse` splits params). -/
def usesParams : List (List Char) :=
  ["", "ftp", "hdl", "prospero", "http", "imap", "https", "shttp",
   "rtsp", "rtspu", "sip", "sips", "mms", "sftp", "tel"].map String.toList

/-- `('[' in netloc) xor (']' in netloc)` raises `ValueError`. -/
def bracketsBad (nl : List Char) : Bool :=
  (nl.contains '[' && !nl.contains ']') ||
  (nl.contains ']' && !nl.contains '[')

/-- Result of `urllib.parse.urlparse`: the six components plus a flag
recording whether an authority (`//`) was present. -/
structure UrlParts where
  scheme : List Char
  hadAuth : Bool
  netloc : List Char
  path : List Char
  params : List Char
  query : List Char
  fragment : List Char
deriving DecidableEq

/-- `urllib.parse.urlparse(url)` with `allow_fragments=True`; `none`
models the `ValueError` raised on unbalanced netloc brackets. -/
def urlparse (url : List Char) : Option UrlParts :=
  let u := urlPre url
  let sr := splitScheme u
  let anr : Bool × List Char × List Char :=
    if ("//".toList).isPrefixOf sr.2 then
      (true, (splitNetloc (sr.2.drop 2)).1, (splitNetloc (sr.2.drop 2)).2)
    else (false, [], sr.2)
  if bracketsBad anr.2.1 then none
  else
    let fr := splitAtFirst '#' anr.2.2
    let qr := splitAtFirst '?' fr.1
    let pp : List Char × List Char :=
      if usesParams.contains sr.1 && qr.1.contains ';' then splitparams qr.1
      else (qr.1, [])
    some ⟨sr.1, anr.1, anr.2.1, pp.1, pp.2, qr.2, fr.2⟩

/-! ### `urllib.parse.parse_qs` -/

/-- `str.split(sep)` for a single-character separator. -/
def splitOnChar (sep : Char) : List Char → List (List Char)
  | [] => [[]]
  | c :: rest =>
    if c = sep then [] :: splitOnChar sep rest
    else
      match splitOnChar sep rest with
      | [] => [[c]]
      | f :: fs => (c :: f) :: fs

/-- Split a field at its first `=` (present or not). -/
def splitAtFirstEq (field : List Char) : Option (List Char × List Char) :=
  if field.contains '=' then
    some (field.takeWhile (fun c => c != '='),
      (field.dropWhile (fun c => c != '=')).tail)
  else none

/-- `parse_qsl` with the default `keep_blank_values=False` and
separator `&`: empty fields and fields with no `=` or an empty raw
value are dropped; names and values are `unquote_plus`-decoded. -/
def parse_qsl (q : List Char) : List (List Char × List Char) :=
  (splitOnChar '&' q).filterMap (fun field =>
    if field.isEmpty then none
    else
      match splitAtFirstEq field with
      | none => none
      | some (k, v) =>
        if v.isEmpty then none else some (unquotePlus k, unquotePlus v))

/-- Append a value under a key, preserving first-occurrence order
(`parsed_result[name].append(value)` on an insertion-ordered dict). -/
def insertQS (acc : List (List Char × List (List Char)))
    (k v : List Char) : List (List Char × List (List Char)) :=
  match acc with
  | [] => [(k, [v])]
  | (k0, vs) :: rest =>
    if k0 = k then (k0, vs ++ [v]) :: rest
    else (k0, vs) :: insertQS rest k v

/-- `urllib.parse.parse_qs` as an insertion-ordered association list. -/
def parse_qs (q : List Char) : List (List Char × List (List Char)) :=
  (parse_qsl q).foldl (fun acc kv => insertQS acc kv.1 kv.2) []

/-! ### SmartWebScraper.normalize_url (webfill.py lines 357-386) -/

/-- `parsed.path.rstrip('/')`. -/
def rstripSlash (p : List Char) : List Char :=
  (p.reverse.dropWhile (fun c => c == '/')).reverse

/-- `if not path: path = '/'`. -/
def pathOrSlash (p0 : List Char) : List Char :=
  if p0.isEmpty then "/".toList else p0

/-- `important_params = ['id', 'page', 'category', 'tag', 'slug', 'section']`. -/
def importantParams : List (List Char) :=
  ["id", "page", "category", "tag", "slug", "section"].map String.toList

/-- The `clean_params` dict: parameters whose lowercased key is
important, each mapped to its first value. -/
def cleanParams (q : List Char) : List (List Char × List Char) :=
  (parse_qs q).filterMap (fun kv =>
    if asciiLower kv.1 ∈ importantParams then
      match kv.2 with
      | v :: _ => some (kv.1, v)
      | [] => none
    else none)

/-- `'&'.join(query_pairs)`. -/
def joinAmp : List (List Char) → List Char
  | [] => []
  | [f] => f
  | f :: fs => f ++ '&' :: joinAmp fs

/-- The rebuilt query string `f"{key}={quote(str(value))}"` joined
with `&`. -/
def buildQuery (clean : List (List Char × List Char)) : List Char :=
  joinAmp (clean.map (fun kv => kv.1 ++ '=' :: pyQuote kv.2))

/-- `SmartWebScraper.normalize_url(url)`; `none` models the
`ValueError` that `urlparse` can raise propagating out (the method has
no try/except). -/
def normalize_url (url : List Char) : Option (List Char) :=
  if url.isEmpty then some []
  else
    match urlparse url with
    | none => none
    | some p =>
      let path := pathOrSlash (rstripSlash p.path)
      let query := buildQuery (cleanParams p.query)
      some (p.scheme ++ "://".toList ++ p.netloc ++ path ++
        (if query.isEmpty then [] else '?' :: query))

/-! ### SmartURLValidator (webfill.py lines 76-206) -/

/-- `str.replace('www.', '')`: remove every (non-overlapping,
left-to-right) occurrence of the substring `www.`. -/
def removeWww : List Char → List Char
  | 'w' :: 'w' :: 'w' :: '.' :: rest => removeWww rest
  | c :: rest => c :: removeWww rest
  | [] => []

structure SmartURLValidator where
  base_domain : List Char
deriving DecidableEq

/-- `SmartURLValidator.__init__`: `base_domain.replace('www.', '').lower()`. -/
def SmartURLValidator.init (base : List Char) : SmartURLValidator :=
  ⟨asciiLower (removeWww base)⟩

/-- The pattern `/.well-known/` with its unescaped `.` matching any
character except a newline. -/
def hasSlashDotWellKnown : List Char → Bool
  | [] => false
  | c :: rest =>
    (c == '/' && (match rest with
      | d :: rest2 => d != '\n' && ("well-known/".toList).isPrefixOf rest2
      | [] => false)) || hasSlashDotWellKnown rest

def extSuffixes1 : List (List Char) :=
  ["css", "js", "ico", "png", "jpg", "jpeg", "gif", "svg", "woff",
   "woff2", "ttf", "eot"].map (fun e => ("." ++ e).toList)

def extSuffixes2 : List (List Char) :=
  ["pdf", "doc", "docx", "xls", "xlsx", "zip", "rar", "mp4", "mp3",
   "avi", "mov"].map (fun e => ("." ++ e).toList)

/-- The `skip_patterns` of `SmartURLValidator`, each regex translated
to the substring / suffix test it denotes (`re.search` with
`re.IGNORECASE` on the already-lowercased URL): `/cdn-cgi/`,
`/cf-ray/`, the two anchored extension alternations, `\.json$`,
`\.xml$`, `\.txt$`, the admin/static path fragments, `/.well-known/`
(unescaped dot), the social/tracking domains, `mailto:`, `tel:`,
`javascript:`, `#`, `/search\?`, `\?utm_`, `/feed/?$`, `/rss/?$`,
`/sitemap`. -/
def matchesSkipPatterns (u : List Char) : Bool :=
  containsSub u ("/cdn-cgi/".toList) ||
  containsSub u ("/cf-ray/".toList) ||
  extSuffixes1.any (fun e => e.isSuffixOf u) ||
  extSuffixes2.any (fun e => e.isSuffixOf u) ||
  (".json".toList).isSuffixOf u ||
  (".xml".toList).isSuffixOf u ||
  (".txt".toList).isSuffixOf u ||
  containsSub u ("/wp-admin/".toList) ||
  containsSub u ("/wp-content/uploads/".toList) ||
  containsSub u ("/admin/".toList) ||
  containsSub u ("/_next/static/".toList) ||
  containsSub u ("/static/".toList) ||
  containsSub u ("/assets/".toList) ||
  containsSub u ("/node_modules/".toList) ||
  hasSlashDotWellKnown u ||
  containsSub u ("facebook.com".toList) ||
  containsSub u ("twitter.com".toList) ||
  containsSub u ("linkedin.com".toList) ||
  containsSub u ("instagram.com".toList) ||
  containsSub u ("youtube.com".toList) ||
  containsSub u ("mailto:".toList) ||
  containsSub u ("tel:".toList) ||
  containsSub u ("javascript:".toList) ||
  containsSub u ("#".toList) ||
  containsSub u ("google-analytics".toList) ||
  containsSub u ("googletagmanager".toList) ||
  containsSub u ("facebook.net".toList) ||
  containsSub u ("doubleclick.net".toList) ||
  containsSub u ("/search?".toList) ||
  containsSub u ("?utm_".toList) ||
  ("/feed".toList).isSuffixOf u || ("/feed/".toList).isSuffixOf u ||
  ("/rss".toList).isSuffixOf u || ("/rss/".toList).isSuffixOf u ||
  containsSub u ("/sitemap".toList)

/-- `len([p for p in parsed.path.split('/') if p])`. -/
def pathDepth (p : List Char) : Nat :=
  ((splitOnChar '/' p).filter (fun seg => !seg.isEmpty)).length

/-- `SmartURLValidator.is_valid_url(url)`. -/
def is_valid_url (v : SmartURLValidator) (url : List Char) : Bool :=
  if url.isEmpty || decide (2000 < url.length) then false
  else
    match urlparse url with
    | none => false    -- the `except: return False`
    | some p =>
      if !(p.scheme == "http".toList || p.scheme == "https".toList) then false
      else if asciiLower (removeWww p.netloc) != v.base_domain then false
      else if matchesSkipPatterns (asciiLower url) then false
      else if decide (200 < p.query.length) then false
      else if decide (6 < pathDepth p.path) then false
      else true

/-- `good_patterns` of `SmartURLValidator` (all plain substrings). -/
def goodPatterns : List (List Char) :=
  ["/blog/", "/article/", "/post/", "/news/", "/about/", "/contact/",
   "/service/", "/product/", "/pricing/", "/feature/", "/help/",
   "/support/", "/docs/", "/guide/", "/tutorial/"].map String.toList

/-- `SmartURLValidator.get_url_priority(url)`.  Inside `add_url` this
runs only after `is_valid_url` has parsed the same string successfully,
so the `getD` default models a dead branch (Python would propagate the
`ValueError` there). -/
def get_url_priority (url : List Char) : Nat :=
  let url_lower := asciiLower url
  let fromGood :=
    10 * (goodPatterns.filter (fun pat => containsSub url_lower pat)).length
  let p := (urlparse url).getD ⟨[], false, [], [], [], [], []⟩
  fromGood + (5 - pathDepth p.path) + (if p.query.isEmpty then 2 else 0)

/-! ### Crawl frontier (webfill.py, SmartWebScraper.add_url lines
318-339 and get_next_url lines 341-355).  The state carries the
collections those two methods read and write; `visited` / `failed_urls`
are mutated elsewhere (`scrape_page`), modelled as separate steps. -/

structure SmartWebScraper where
  validator : SmartURLValidator
  visited : List (List Char)
  failed_urls : List (List Char)
  priority_urls : List (List Char)
  regular_urls : List (List Char)
  page_summaries : Nat
  max_pages : Nat
  urls_filtered : Nat

/-- The collection state right after `__init__` has created the empty
collections (the constructor then seeds the frontier by calling
`add_url(base_url, priority=10)`, which is an ordinary step). -/
def SmartWebScraper.mkEmpty (baseDomain : List Char) (maxPages : Nat) :
    SmartWebScraper :=
  ⟨SmartURLValidator.init baseDomain, [], [], [], [], 0, maxPages, 0⟩

/-- `SmartWebScraper.add_url(url, priority)`. -/
def SmartWebScraper.add_url (st : SmartWebScraper) (url : List Char)
    (priority : Nat) : SmartWebScraper :=
  if !is_valid_url st.validator url then
    { st with urls_filtered := st.urls_filtered + 1 }
  else
    match normalize_url url with
    | none => st    -- unreachable: is_valid_url has just parsed `url`
    | some n =>
      if n ∈ st.visited ∨ n ∈ st.failed_urls then st
      else
        let actual := priority + get_url_priority url
        if 8 ≤ actual then
          if n ∈ st.priority_urls then st
          else { st with priority_urls := st.priority_urls ++ [n] }
        else
          if n ∈ st.regular_urls then st
          else { st with regular_urls := st.regular_urls ++ [n] }

/-- `SmartWebScraper.get_next_url()`. -/
def SmartWebScraper.get_next_url (st : SmartWebScraper) :
    Option (List Char) × SmartWebScraper :=
  if st.max_pages ≤ st.page_summaries then (none, st)
  else
    match st.priority_urls with
    | n :: rest => (some n, { st with priority_urls := rest })
    | [] =>
      match st.regular_urls with
      | n :: rest => (some n, { st with regular_urls := rest })
      | [] => (none, st)

/-- One step on the frontier state: an `add_url` call, a
`get_next_url` call, or `scrape_page` marking a normalized URL as
visited or failed. -/
inductive FrontStep : SmartWebScraper → SmartWebScraper → Prop where
  | add (st : SmartWebScraper) (url : List Char) (priority : Nat) :
      FrontStep st (st.add_url url priority)
  | deq (st : SmartWebScraper) : FrontStep st (st.get_next_url).2
  | markVisited (st : SmartWebScraper) (n : List Char) :
      FrontStep st { st with visited := n :: st.visited }
  | markFailed (st : SmartWebScraper) (n : List Char) :
      FrontStep st { st with failed_urls := n :: st.failed_urls }

/-- Frontier states reachable from a fresh scraper. -/
inductive FrontReach (base : List Char) (mp : Nat) : SmartWebScraper → Prop where
  | init : FrontReach base mp (SmartWebScraper.mkEmpty base mp)
  | step {st st' : SmartWebScraper} : FrontReach base mp st →
      FrontStep st st' → FrontReach base mp st'

/-! ### C8: cross-domain validation -/

/-- Modelled from the spec's words ("ignoring a leading `www.`"):
strip one leading `www.` prefix, nothing else. -/
def specStripLeadingWww (h : List Char) : List Char :=
  if ("www.".toList).isPrefixOf h then h.drop 4 else h

/-- The UTF-8 byte stream of a string. -/
def encodeAll (us : List Char) : List Nat :=
  us.flatMap (fun c => utf8Encode c.toNat)

/-! ## Theorems -/

theorem CircuitBreaker.run_append (cb : CircuitBreaker)
    (l₁ l₂ : List (Nat × Bool)) :
    cb.run (l₁ ++ l₂) =
      ((cb.run l₁).1.run l₂ |>.1, (cb.run l₁).2 + ((cb.run l₁).1.run l₂).2) := by
  induction l₁ generalizing cb with
  | nil => simp [CircuitBreaker.run]
  | cons e evs ih =>
    obtain ⟨t, ok⟩ := e
    show CircuitBreaker.run cb ((t, ok) :: (evs ++ l₂)) = _
    simp only [CircuitBreaker.run]
    rw [ih]
    simp only [Prod.mk.injEq, true_and, and_true]
    omega

theorem CircuitBreaker.call_closed_true (ft rt fc lt now : Nat) :
    CircuitBreaker.call ⟨ft, rt, fc, lt, .closed⟩ now true =
      (⟨ft, rt, fc, lt, .closed⟩, .success) := rfl

theorem CircuitBreaker.call_closed_false_stay (ft rt fc lt now : Nat)
    (h : ¬ ft ≤ fc + 1) :
    CircuitBreaker.call ⟨ft, rt, fc, lt, .closed⟩ now false =
      (⟨ft, rt, fc + 1, now, .closed⟩, .failure) := by
  simp [CircuitBreaker.call, CircuitBreaker.proceed, h]

theorem CircuitBreaker.call_closed_false_trip (ft rt fc lt now : Nat)
    (h : ft ≤ fc + 1) :
    CircuitBreaker.call ⟨ft, rt, fc, lt, .closed⟩ now false =
      (⟨ft, rt, fc + 1, now, .opened⟩, .failure) := by
  simp [CircuitBreaker.call, CircuitBreaker.proceed, h]

theorem CircuitBreaker.call_opened_rejected (ft rt fc lt now : Nat) (b : Bool)
    (h : ¬ rt < now - lt) :
    CircuitBreaker.call ⟨ft, rt, fc, lt, .opened⟩ now b =
      (⟨ft, rt, fc, lt, .opened⟩, .rejected) := by
  simp [CircuitBreaker.call, h]

theorem CircuitBreaker.call_opened_through (ft rt fc lt now : Nat) (b : Bool)
    (h : rt < now - lt) :
    CircuitBreaker.call ⟨ft, rt, fc, lt, .opened⟩ now b =
      CircuitBreaker.proceed ⟨ft, rt, fc, lt, .halfOpen⟩ now b := by
  simp [CircuitBreaker.call, h]

theorem CircuitBreaker.proceed_halfOpen_true (ft rt fc lt now : Nat) :
    CircuitBreaker.proceed ⟨ft, rt, fc, lt, .halfOpen⟩ now true =
      (⟨ft, rt, 0, lt, .closed⟩, .success) := rfl

theorem CircuitBreaker.proceed_halfOpen_false_trip (ft rt fc lt now : Nat)
    (h : ft ≤ fc + 1) :
    CircuitBreaker.proceed ⟨ft, rt, fc, lt, .halfOpen⟩ now false =
      (⟨ft, rt, fc + 1, now, .opened⟩, .failure) := by
  simp [CircuitBreaker.proceed, h]

theorem CircuitBreaker.proceed_halfOpen_false_stay (ft rt fc lt now : Nat)
    (h : ¬ ft ≤ fc + 1) :
    CircuitBreaker.proceed ⟨ft, rt, fc, lt, .halfOpen⟩ now false =
      (⟨ft, rt, fc + 1, now, .halfOpen⟩, .failure) := by
  simp [CircuitBreaker.proceed, h]

/-- A run of calls from a closed breaker whose failure count stays
strictly below the threshold: every call invokes the wrapped function,
successes change nothing, failures increment the counter and stamp the
time. -/
theorem CircuitBreaker.run_closed_below (evs : List (Nat × Bool)) :
    ∀ ft rt fc lt, fc + numFails evs < ft →
    CircuitBreaker.run ⟨ft, rt, fc, lt, .closed⟩ evs =
      (⟨ft, rt, fc + numFails evs, lastFailT lt evs, .closed⟩, evs.length) := by
  induction evs with
  | nil => intro ft rt fc lt h; simp [CircuitBreaker.run, numFails, lastFailT]
  | cons e evs ih =>
    intro ft rt fc lt h
    obtain ⟨t, ok⟩ := e
    cases ok with
    | true =>
      have hn : numFails ((t, true) :: evs) = numFails evs := by
        simp [numFails]
      rw [hn] at h ⊢
      have hif : (if CallOutcome.success = CallOutcome.rejected then (0 : Nat)
          else 1) = 1 := rfl
      simp only [CircuitBreaker.run, CircuitBreaker.call_closed_true,
        ih ft rt fc lt h, lastFailT, hif, Prod.mk.injEq]
      exact ⟨rfl, by simp; omega⟩
    | false =>
      have hn : numFails ((t, false) :: evs) = numFails evs + 1 := by
        simp [numFails]
      rw [hn] at h ⊢
      have hlt : ¬ ft ≤ fc + 1 := by omega
      have hif : (if CallOutcome.failure = CallOutcome.rejected then (0 : Nat)
          else 1) = 1 := rfl
      simp only [CircuitBreaker.run,
        CircuitBreaker.call_closed_false_stay ft rt fc lt t hlt]
      have h2 : fc + 1 + numFails evs < ft := by omega
      simp only [ih ft rt (fc + 1) t h2, lastFailT, hif, Prod.mk.injEq]
      refine ⟨?_, by simp; omega⟩
      have heq : fc + 1 + numFails evs = fc + (numFails evs + 1) := by omega
      simp [heq]

/-- Running `ft` consecutive failing calls from a freshly constructed
breaker (times `ts` for the first `ft - 1`, time `tl` for the last)
ends with an open breaker whose count is `ft`, last failure time `tl`,
having invoked the wrapped function `ft` times. -/
theorem CircuitBreaker.run_allFails_trip (ft rt : Nat) (ts : List Nat)
    (tl : Nat) (hlen : ts.length + 1 = ft) :
    (CircuitBreaker.init ft rt).run
        (ts.map (fun s => (s, false)) ++ [(tl, false)]) =
      (⟨ft, rt, ft, tl, .opened⟩, ft) := by
  have hnum : numFails (ts.map (fun s => (s, false))) = ts.length := by
    clear hlen
    induction ts with
    | nil => rfl
    | cons a l ihl =>
      simp only [numFails, List.map_cons, List.filter_cons] at ihl ⊢
      simpa using ihl
  have hbelow : (0 : Nat) + numFails (ts.map (fun s => (s, false))) < ft := by
    omega
  rw [CircuitBreaker.run_append,
    show CircuitBreaker.init ft rt =
      (⟨ft, rt, 0, 0, CBMode.closed⟩ : CircuitBreaker) from rfl,
    CircuitBreaker.run_closed_below _ ft rt 0 0 hbelow]
  rw [hnum]
  have htrip := CircuitBreaker.call_closed_false_trip ft rt (0 + ts.length)
      (lastFailT 0 (ts.map (fun s => (s, false)))) tl (by omega)
  have hif : (if CallOutcome.failure = CallOutcome.rejected then (0 : Nat)
      else 1) = 1 := rfl
  simp only [CircuitBreaker.run, htrip, hif, List.length_map, Prod.mk.injEq,
    CircuitBreaker.mk.injEq, and_true, true_and]
  omega

/-- C1: For a circuit breaker constructed with `failure_threshold` and
`recovery_timeout` (with a positive threshold), after exactly
`failure_threshold` consecutive failing calls the state is `open` and
the failure count equals the threshold; the wrapped function was
invoked exactly `failure_threshold` times; and any call attempted
while open, strictly less than `recovery_timeout` seconds after the
last failure, is rejected with the distinguished circuit-open error —
the wrapped function's total invocation count stays at
`failure_threshold`. -/
theorem circuitBreaker_opens_after_threshold_and_fails_fast
    (ft rt : Nat) (ts : List Nat) (tl t : Nat) (b : Bool)
    (cb : CircuitBreaker) (hcb : cb = CircuitBreaker.init ft rt)
    (hft : 1 ≤ ft) (hlen : ts.length + 1 = ft) (ht : t - tl < rt) :
    let evs := ts.map (fun s => (s, false)) ++ [(tl, false)]
    let r := cb.run evs
    r.1.state = CBMode.opened ∧ r.1.failure_count = ft ∧
    r.1.last_failure_time = tl ∧ r.2 = ft ∧
    (r.1.call t b).2 = CallOutcome.rejected ∧
    (cb.run (evs ++ [(t, b)])).2 = ft := by
  subst hcb
  intro evs r
  have hr : r = (⟨ft, rt, ft, tl, .opened⟩, ft) :=
    CircuitBreaker.run_allFails_trip ft rt ts tl hlen
  have hreject := CircuitBreaker.call_opened_rejected ft rt ft tl t b
    (by omega)
  refine ⟨by rw [hr], by rw [hr], by rw [hr], by rw [hr],
    by rw [hr]; rw [hreject], ?_⟩
  rw [CircuitBreaker.run_append,
    show ((CircuitBreaker.init ft rt).run evs) = r from rfl, hr]
  simp [CircuitBreaker.run, hreject]

/-- Witness for C1: threshold 2, timeout 10, failures at times 3 and 4,
probe at time 9 (9 - 4 = 5 < 10). -/
theorem circuitBreaker_opens_after_threshold_and_fails_fast_witness :
    (1 ≤ 2 ∧ [3].length + 1 = 2 ∧ 9 - 4 < 10) ∧
    (let evs := [3].map (fun s => (s, false)) ++ [(4, false)]
     let r := (CircuitBreaker.init 2 10).run evs
     r.1.state = CBMode.opened ∧ r.1.failure_count = 2 ∧
     r.1.last_failure_time = 4 ∧ r.2 = 2 ∧
     (r.1.call 9 true).2 = CallOutcome.rejected ∧
     ((CircuitBreaker.init 2 10).run (evs ++ [(9, true)])).2 = 2) :=
  ⟨⟨by decide, by decide, by decide⟩,
   circuitBreaker_opens_after_threshold_and_fails_fast 2 10 [3] 4 9 true
     (CircuitBreaker.init 2 10) rfl (by decide) (by decide) (by decide)⟩

/-! Reachable breaker states: the initial state of
`CircuitBreaker.__init__` followed by any sequence of `call`s. -/

/-- From a non-open state, `proceed` lands in `opened` only with a
count at the threshold; helper for the reachability invariant. -/
theorem CircuitBreaker.proceed_inv (ft rt fc lt now : Nat) (st : CBMode)
    (ok : Bool) (hst : st ≠ CBMode.opened) :
    (CircuitBreaker.proceed ⟨ft, rt, fc, lt, st⟩ now ok).1.failure_threshold = ft ∧
    (CircuitBreaker.proceed ⟨ft, rt, fc, lt, st⟩ now ok).1.recovery_timeout = rt ∧
    ((CircuitBreaker.proceed ⟨ft, rt, fc, lt, st⟩ now ok).1.state = CBMode.opened →
      ft ≤ (CircuitBreaker.proceed ⟨ft, rt, fc, lt, st⟩ now ok).1.failure_count) := by
  cases st with
  | opened => exact absurd rfl hst
  | closed =>
    cases ok with
    | true =>
      refine ⟨rfl, rfl, fun h => ?_⟩
      simp [CircuitBreaker.proceed] at h
    | false =>
      by_cases htrip : ft ≤ fc + 1
      · simp [CircuitBreaker.proceed, htrip]
      · simp [CircuitBreaker.proceed, htrip]
  | halfOpen =>
    cases ok with
    | true =>
      refine ⟨rfl, rfl, fun h => ?_⟩
      simp [CircuitBreaker.proceed] at h
    | false =>
      by_cases htrip : ft ≤ fc + 1
      · simp [CircuitBreaker.proceed, htrip]
      · simp [CircuitBreaker.proceed, htrip]

/-- In every reachable state the configuration fields are unchanged and
an open breaker has accumulated at least `failure_threshold` failures
(the counter is reset only together with a transition to `closed`). -/
theorem cbReach_inv {ft rt : Nat} {cb : CircuitBreaker}
    (h : CBReach ft rt cb) :
    cb.failure_threshold = ft ∧ cb.recovery_timeout = rt ∧
      (cb.state = CBMode.opened → ft ≤ cb.failure_count) := by
  induction h with
  | init => exact ⟨rfl, rfl, fun h => by simp [CircuitBreaker.init] at h⟩
  | step cb now ok _ ih =>
    obtain ⟨hft, hrt, hopen⟩ := ih
    obtain ⟨ft', rt', fc, lt, st⟩ := cb
    simp only at hft hrt hopen
    subst hft
    subst hrt
    cases st with
    | closed =>
      exact CircuitBreaker.proceed_inv ft' rt' fc lt now .closed ok (by simp)
    | halfOpen =>
      exact CircuitBreaker.proceed_inv ft' rt' fc lt now .halfOpen ok (by simp)
    | opened =>
      by_cases hrec : rt' < now - lt
      · rw [CircuitBreaker.call_opened_through ft' rt' fc lt now ok hrec]
        exact CircuitBreaker.proceed_inv ft' rt' fc lt now .halfOpen ok (by simp)
      · rw [CircuitBreaker.call_opened_rejected ft' rt' fc lt now ok hrec]
        exact ⟨rfl, rfl, hopen⟩

/-- C4: once strictly more than `recovery_timeout` seconds have elapsed
since the last failure of a reachable open breaker, the next call is
allowed through (it is not rejected, i.e. it runs in the transient
`half-open` state): a successful call resets the failure counter to
zero and closes the breaker; a failing call returns the breaker to
`open` (reachability guarantees the counter already sits at the
threshold). -/
theorem circuitBreaker_halfOpen_transitions
    (ft rt : Nat) (cb : CircuitBreaker) (now : Nat)
    (hr : CBReach ft rt cb) (hs : cb.state = CBMode.opened)
    (ht : cb.recovery_timeout < now - cb.last_failure_time) :
    (cb.call now true).2 = CallOutcome.success ∧
    (cb.call now true).1.state = CBMode.closed ∧
    (cb.call now true).1.failure_count = 0 ∧
    (cb.call now false).2 = CallOutcome.failure ∧
    (cb.call now false).1.state = CBMode.opened := by
  obtain ⟨hft, hrt, hopen⟩ := cbReach_inv hr
  obtain ⟨ft', rt', fc, lt, st⟩ := cb
  simp only at hft hrt hs ht hopen
  subst hs
  have hcount : ft' ≤ fc := by rw [hft]; exact hopen rfl
  have htrip : ft' ≤ fc + 1 := by omega
  rw [CircuitBreaker.call_opened_through ft' rt' fc lt now true ht,
    CircuitBreaker.call_opened_through ft' rt' fc lt now false ht,
    CircuitBreaker.proceed_halfOpen_true,
    CircuitBreaker.proceed_halfOpen_false_trip ft' rt' fc lt now htrip]
  exact ⟨rfl, rfl, rfl, rfl, rfl⟩

/-- Witness for C4: breaker with threshold 1, timeout 3, tripped by a
failure at time 5, probed at time 10 (10 - 5 = 5 > 3). -/
theorem circuitBreaker_halfOpen_transitions_witness :
    (((CircuitBreaker.init 1 3).call 5 false).1.state = CBMode.opened ∧
     ((CircuitBreaker.init 1 3).call 5 false).1.recovery_timeout <
       10 - ((CircuitBreaker.init 1 3).call 5 false).1.last_failure_time) ∧
    ((((CircuitBreaker.init 1 3).call 5 false).1.call 10 true).2 =
       CallOutcome.success ∧
     ((((CircuitBreaker.init 1 3).call 5 false).1.call 10 true).1.state =
       CBMode.closed) ∧
     ((((CircuitBreaker.init 1 3).call 5 false).1.call 10 true).1.failure_count = 0) ∧
     ((((CircuitBreaker.init 1 3).call 5 false).1.call 10 false).2 =
       CallOutcome.failure) ∧
     ((((CircuitBreaker.init 1 3).call 5 false).1.call 10 false).1.state =
       CBMode.opened)) :=
  ⟨⟨by decide, by decide⟩,
   circuitBreaker_halfOpen_transitions 1 3
     ((CircuitBreaker.init 1 3).call 5 false).1 10
     (CBReach.step (CircuitBreaker.init 1 3) 5 false CBReach.init)
     (by decide) (by decide)⟩

/-- C10: a successful call in the `closed` state leaves the breaker
entirely unchanged — in particular it does not reset the failure
counter — and consequently any trace that accumulates
`failure_threshold` total failures while closed, however interleaved
with successes, leaves the breaker `open` after its final failure:
consecutive failures are sufficient but not necessary. -/
theorem circuitBreaker_closed_success_no_reset
    (cb : CircuitBreaker) (now : Nat) (ft rt : Nat)
    (evs : List (Nat × Bool)) (t : Nat)
    (hclosed : cb.state = CBMode.closed)
    (hft : 1 ≤ ft) (hcount : numFails evs + 1 = ft) :
    (cb.call now true).1 = cb ∧
    ((CircuitBreaker.init ft rt).run (evs ++ [(t, false)])).1.state =
      CBMode.opened := by
  constructor
  · obtain ⟨ft', rt', fc, lt, st⟩ := cb
    simp only at hclosed
    subst hclosed
    rfl
  · rw [CircuitBreaker.run_append]
    have hb : (0 : Nat) + numFails evs < ft := by omega
    rw [show CircuitBreaker.init ft rt =
      (⟨ft, rt, 0, 0, CBMode.closed⟩ : CircuitBreaker) from rfl,
      CircuitBreaker.run_closed_below evs ft rt 0 0 hb]
    simp only [CircuitBreaker.run,
      CircuitBreaker.call_closed_false_trip ft rt (0 + numFails evs)
        (lastFailT 0 evs) t (by omega)]

/-- Witness for C10: threshold 3; trace fail, success, fail (two
failures interleaved with a success), then a final failure trips the
breaker to `open`.  The probe breaker for the no-reset conjunct is a
closed breaker with failure count 2. -/
theorem circuitBreaker_closed_success_no_reset_witness :
    ((⟨3, 60, 2, 7, CBMode.closed⟩ : CircuitBreaker).state = CBMode.closed ∧
     1 ≤ 3 ∧ numFails [(1, false), (2, true), (3, false)] + 1 = 3) ∧
    (((⟨3, 60, 2, 7, CBMode.closed⟩ : CircuitBreaker).call 9 true).1 =
       (⟨3, 60, 2, 7, CBMode.closed⟩ : CircuitBreaker) ∧
     ((CircuitBreaker.init 3 60).run
        ([(1, false), (2, true), (3, false)] ++ [(4, false)])).1.state =
       CBMode.opened) :=
  ⟨⟨by decide, by decide, by decide⟩,
   circuitBreaker_closed_success_no_reset
     ⟨3, 60, 2, 7, CBMode.closed⟩ 9 3 60
     [(1, false), (2, true), (3, false)] 4 (by decide) (by decide) (by decide)⟩

/-! ### Adaptive rate limiter (webfill.py, SmartWebScraper:
`smart_delay` lines 388-397, delay updates in `scrape_page` lines
421-443 and `_make_request` line 472).  Python floats are modelled as
exact rationals: the claims concern the `max`/`min` floor and cap
structure, which is insensitive to rounding of the factors. -/

theorem adaptStep_ge_min (ad : ℚ) (e : RateEvent) (h : min_delay ≤ ad) :
    min_delay ≤ adaptStep ad e := by
  cases e with
  | success => exact le_max_right _ _
  | rateLimit =>
    refine le_min ?_ (by norm_num [min_delay])
    rw [min_delay] at h ⊢; linarith
  | cbTrip =>
    refine le_min ?_ (by norm_num [min_delay])
    rw [min_delay] at h ⊢; linarith

/-- C5: under any sequence of rate-limiter updates (success decay,
rate-limit response, circuit-breaker trip) starting from the initial
delay, the adaptive delay never falls below `min_delay`; each
multiplicative increase is bounded above by its cap (15.0 for a
rate-limit response, 10.0 for a circuit-breaker trip); and the next
request issued through `smart_delay` is separated from the previous
request to the same host by at least `min_delay` seconds. -/
theorem adaptiveDelay_floor_caps_and_spacing
    (evs : List RateEvent) (lastT now : ℚ) :
    min_delay ≤ adaptRun evs ∧
    (∀ ad : ℚ, adaptStep ad RateEvent.rateLimit ≤ 15 ∧
               adaptStep ad RateEvent.cbTrip ≤ 10) ∧
    min_delay ≤ smart_delay lastT now (adaptRun evs) - lastT := by
  have hrun : ∀ (l : List RateEvent) (ad : ℚ), min_delay ≤ ad →
      min_delay ≤ l.foldl adaptStep ad := by
    intro l
    induction l with
    | nil => intro ad h; exact h
    | cons e l ih =>
      intro ad h
      exact ih (adaptStep ad e) (adaptStep_ge_min ad e h)
  have hfloor : min_delay ≤ adaptRun evs :=
    hrun evs initial_adaptive_delay (by norm_num [min_delay, initial_adaptive_delay])
  refine ⟨hfloor, fun ad => ⟨min_le_right _ _, min_le_right _ _⟩, ?_⟩
  unfold smart_delay
  split
  · linarith
  · rename_i hneg
    push_neg at hneg
    linarith

/-! ### Retry wrapper (youtube.py, `execute_with_retry` and
`_is_retryable_http_error`, lines 96-118) -/

/-- Counterexample to C7 as stated: an error that is neither a network
timeout, nor a connection error, nor an HTTP 5xx status — here a
generic non-HTTP exception — does NOT propagate immediately: with
`tries = 3` the request is executed 3 times (not 1) before the last
error is raised, because the final `except Exception` handler records
and retries every remaining exception type. -/
theorem execute_with_retry_retries_generic_errors :
    (execute_with_retry (α := Nat) (fun _ => Except.error YtErr.other) 3).1 =
      Except.error (some YtErr.other) ∧
    (execute_with_retry (α := Nat) (fun _ => Except.error YtErr.other) 3).2.1 = 3 ∧
    ¬ (execute_with_retry (α := Nat)
        (fun _ => Except.error YtErr.other) 3).2.1 = 1 :=
  ⟨rfl, rfl, by decide⟩

theorem retryGo_all_retryable {α : Type} (request : Nat → Except YtErr α)
    (errs : Nat → YtErr) :
    ∀ (fuel attempt : Nat) (last : Option YtErr), 1 ≤ fuel →
    (∀ i, i < fuel → request (attempt + i) = .error (errs (attempt + i)) ∧
        recordsAndRetries (errs (attempt + i)) = true) →
    retryGo request attempt fuel last =
      (.error (some (errs (attempt + fuel - 1))), fuel,
        (List.range (fuel - 1)).map (fun i => (2 : ℚ) ^ (attempt + i))) := by
  intro fuel
  induction fuel with
  | zero => intro attempt last h; omega
  | succ f ih =>
    intro attempt last _ hall
    have h0 := hall 0 (by omega)
    simp only [Nat.add_zero] at h0
    show retryGo request attempt (f + 1) last = _
    rw [retryGo, h0.1]
    simp only [h0.2, if_true]
    cases f with
    | zero => simp [retryGo]
    | succ g =>
      have hrest := ih (attempt + 1) (some (errs attempt)) (by omega)
        (fun i hi => by
          have := hall (i + 1) (by omega)
          constructor
          · rw [show attempt + 1 + i = attempt + (i + 1) from by omega]
            exact this.1
          · rw [show attempt + 1 + i = attempt + (i + 1) from by omega]
            exact this.2)
      rw [hrest]
      simp only [Prod.mk.injEq]
      refine ⟨by rw [show attempt + 1 + (g + 1) - 1 = attempt + (g + 1 + 1) - 1 from by omega],
        trivial, ?_⟩
      have hfuel : (1 : Nat) ≤ g + 1 := by omega
      simp only [hfuel, if_true]
      rw [show g + 1 + 1 - 1 = g + 1 from by omega,
        show g + 1 - 1 = g from by omega,
        List.range_succ_eq_map]
      simp only [List.map_cons, List.map_map, List.singleton_append,
        Nat.add_zero, List.cons.injEq]
      refine ⟨trivial, ?_⟩
      apply List.map_congr_left
      intro i _
      simp only [Function.comp_apply]
      rw [show attempt + 1 + i = attempt + (i + 1) from by omega]

/-- C7 (amended): an `HttpError` whose status is outside
{500, 502, 503, 504} propagates immediately after a single execution
with no backoff sleep; whereas if every attempt fails with a condition
the loop records (a retryable HTTP status, a network/timeout error, or
— contrary to the claim as stated — any other exception), the request
is executed exactly `tries` times with exponential backoff sleeps
`2^0, 2^1, ...` between attempts, and the last observed error is
raised to the caller. -/
theorem execute_with_retry_amended {α : Type}
    (request : Nat → Except YtErr α) (tries : Nat) (errs : Nat → YtErr)
    (s : Option Nat) (htries : 1 ≤ tries) :
    (request 0 = .error (.http s) → isRetryableStatus s = false →
      execute_with_retry request tries = (.error (some (.http s)), 1, [])) ∧
    ((∀ i, i < tries → request i = .error (errs i) ∧
        recordsAndRetries (errs i) = true) →
      execute_with_retry request tries =
        (.error (some (errs (tries - 1))), tries,
          (List.range (tries - 1)).map (fun i => (2 : ℚ) ^ i))) := by
  constructor
  · intro h1 h2
    obtain ⟨f, rfl⟩ : ∃ f, tries = f + 1 := ⟨tries - 1, by omega⟩
    show retryGo request 0 (f + 1) none = _
    rw [retryGo, h1]
    simp [recordsAndRetries, h2]
  · intro hall
    have h := retryGo_all_retryable request errs tries 0 none htries
      (fun i hi => by simpa using hall i hi)
    simpa using h

/-- Witness for C7's amended theorem: a 404 propagates after one
execution; an always-timing-out request with `tries = 3` is executed
3 times, sleeps 1s then 2s, and raises the last timeout. -/
theorem execute_with_retry_amended_witness :
    (execute_with_retry (α := Nat)
        (fun _ => Except.error (YtErr.http (some 404))) 3 =
      (Except.error (some (YtErr.http (some 404))), 1, [])) ∧
    (execute_with_retry (α := Nat) (fun _ => Except.error YtErr.net) 3 =
      (Except.error (some YtErr.net), 3,
        (List.range 2).map (fun i => (2 : ℚ) ^ i))) :=
  ⟨(execute_with_retry_amended (fun _ => Except.error (YtErr.http (some 404)))
      3 (fun _ => YtErr.http (some 404)) (some 404) (by decide)).1 rfl rfl,
   (execute_with_retry_amended (fun _ => Except.error YtErr.net)
      3 (fun _ => YtErr.net) (some 404) (by decide)).2
      (fun i _ => ⟨rfl, rfl⟩)⟩

/-! ### String helpers shared by the youtube.py embedding.

Python `str` is modelled as `List Char` (Lean `Char` is a Unicode
scalar value, as is each element of a Python `str`).  The `re`-module
classes `\s`/`\w` and the methods `str.lower`/`str.isalnum` are
Unicode-aware in Python; they are modelled at ASCII fidelity here and
none of the ASCII keyword lists they are compared against can collide
with a non-ASCII case-folding. -/

theorem insertDesc_perm {α : Type} (x : α × ℚ) (l : List (α × ℚ)) :
    (insertDesc x l).Perm (x :: l) := by
  induction l with
  | nil => exact List.Perm.refl _
  | cons y ys ih =>
    by_cases h : y.2 ≤ x.2
    · simp [insertDesc, h]
    · simp only [insertDesc, h, if_false]
      exact (ih.cons y).trans (List.Perm.swap x y ys)

theorem sortPairsDesc_perm {α : Type} (l : List (α × ℚ)) :
    (sortPairsDesc l).Perm l := by
  induction l with
  | nil => exact List.Perm.refl _
  | cons x xs ih =>
    exact (insertDesc_perm x (sortPairsDesc xs)).trans (ih.cons x)

theorem mem_insertDesc {α : Type} {x b : α × ℚ} {l : List (α × ℚ)}
    (h : b ∈ insertDesc x l) : b = x ∨ b ∈ l := by
  have := (insertDesc_perm x l).mem_iff.mp h
  simpa using this

theorem pairwise_insertDesc {α : Type} (x : α × ℚ) (l : List (α × ℚ))
    (h : l.Pairwise (fun a b => b.2 ≤ a.2)) :
    (insertDesc x l).Pairwise (fun a b => b.2 ≤ a.2) := by
  induction l with
  | nil => simp [insertDesc]
  | cons y ys ih =>
    rw [List.pairwise_cons] at h
    by_cases hc : y.2 ≤ x.2
    · simp only [insertDesc, hc, if_true]
      rw [List.pairwise_cons]
      refine ⟨?_, List.pairwise_cons.mpr h⟩
      intro b hb
      rcases List.mem_cons.mp hb with hbe | hby
      · subst hbe; exact hc
      · exact le_trans (h.1 b hby) hc
    · simp only [insertDesc, hc, if_false]
      rw [List.pairwise_cons]
      refine ⟨?_, ih h.2⟩
      intro b hb
      rcases mem_insertDesc hb with hbe | hby
      · subst hbe; exact le_of_not_le hc
      · exact h.1 b hby

theorem sortPairsDesc_pairwise {α : Type} (l : List (α × ℚ)) :
    (sortPairsDesc l).Pairwise (fun a b => b.2 ≤ a.2) := by
  induction l with
  | nil => simp [sortPairsDesc]
  | cons x xs ih => exact pairwise_insertDesc x (sortPairsDesc xs) ih

/-- For a positive cap, the selection loop keeps exactly the
above-floor entries in order, truncated at the remaining budget. -/
theorem selectLoop_eq {α : Type} (minSim : ℚ) (maxC : Nat) :
    ∀ (l : List (α × ℚ)) (k : Nat), k < maxC →
    selectLoop minSim maxC l k =
      (l.filter (fun p => minSim ≤ p.2)).take (maxC - k) := by
  intro l
  induction l with
  | nil => intro k hk; simp [selectLoop]
  | cons p rest ih =>
    intro k hk
    obtain ⟨c, s⟩ := p
    by_cases hs : minSim ≤ s
    · by_cases hb : maxC ≤ k + 1
      · have h1 : maxC - k = 1 := by omega
        simp [selectLoop, hs, hb, h1, List.filter_cons]
      · have h1 : maxC - k = (maxC - (k + 1)) + 1 := by omega
        simp only [selectLoop, hs, if_true, hb, if_false,
          ih (k + 1) (by omega), List.filter_cons]
        simp [hs, h1]
    · simp only [selectLoop, hs, if_false, ih k hk, List.filter_cons]
      simp [hs]

/-- Everything the selection loop emits comes from its input and
clears the floor (true for every cap, including the degenerate 0). -/
theorem selectLoop_subset {α : Type} (minSim : ℚ) (maxC : Nat) :
    ∀ (l : List (α × ℚ)) (k : Nat) (p : α × ℚ),
    p ∈ selectLoop minSim maxC l k → minSim ≤ p.2 ∧ p ∈ l := by
  intro l
  induction l with
  | nil => intro k p hp; simp [selectLoop] at hp
  | cons q rest ih =>
    intro k p hp
    obtain ⟨c, s⟩ := q
    by_cases hs : minSim ≤ s
    · simp only [selectLoop, hs, if_true] at hp
      rcases List.mem_cons.mp hp with hpe | hpt
      · subst hpe; exact ⟨hs, List.mem_cons_self _ _⟩
      · by_cases hb : maxC ≤ k + 1
        · simp [hb] at hpt
        · simp only [hb, if_false] at hpt
          obtain ⟨h1, h2⟩ := ih (k + 1) p hpt
          exact ⟨h1, List.mem_cons_of_mem _ h2⟩
    · simp only [selectLoop, hs, if_false] at hp
      obtain ⟨h1, h2⟩ := ih k p hp
      exact ⟨h1, List.mem_cons_of_mem _ h2⟩

theorem semanticRerank_subset {α : Type} {filtered : List α} {sims : List ℚ}
    {minSim : ℚ} {maxC : Nat} {p : α × ℚ}
    (hp : p ∈ semanticRerank filtered sims minSim maxC) :
    minSim ≤ p.2 ∧ p ∈ filtered.zip sims := by
  obtain ⟨h1, h2⟩ := selectLoop_subset minSim maxC _ 0 p hp
  exact ⟨h1, (sortPairsDesc_perm (filtered.zip sims)).mem_iff.mp h2⟩

/-- C3: for any comments, similarity scores, floor and positive cap,
the semantic rerank stage returns exactly the entries at or above the
floor from the descending stable sort, truncated at the cap: the
output is sorted by descending similarity, every output entry clears
the floor and comes from the input, at most `cap` entries are
returned, and whenever the output is shorter than the cap it already
contains every above-floor entry (no fallback broadens the floor).
In particular for similarities [0.1, 0.3, 0.5], floor 0.25 and cap 2
the output is exactly the 0.5- and 0.3-scoring comments in that
order. -/
theorem semanticRerank_spec {α : Type} (filtered : List α) (sims : List ℚ)
    (minSim : ℚ) (maxC : Nat) (hmax : 1 ≤ maxC) :
    (semanticRerank filtered sims minSim maxC =
      ((sortPairsDesc (filtered.zip sims)).filter
        (fun p => minSim ≤ p.2)).take maxC) ∧
    (semanticRerank filtered sims minSim maxC).Pairwise
      (fun a b => b.2 ≤ a.2) ∧
    (∀ p ∈ semanticRerank filtered sims minSim maxC,
      minSim ≤ p.2 ∧ p ∈ filtered.zip sims) ∧
    (semanticRerank filtered sims minSim maxC).length ≤ maxC ∧
    ((semanticRerank filtered sims minSim maxC).length < maxC →
      ∀ p ∈ filtered.zip sims, minSim ≤ p.2 →
        p ∈ semanticRerank filtered sims minSim maxC) ∧
    semanticRerank [10, 20, 30]
      [1/10, 3/10, 5/10] (1/4) 2 = [(30, 5/10), (20, 3/10)] := by
  have heq : semanticRerank filtered sims minSim maxC =
      ((sortPairsDesc (filtered.zip sims)).filter
        (fun p => minSim ≤ p.2)).take maxC := by
    have := selectLoop_eq minSim maxC (sortPairsDesc (filtered.zip sims)) 0
      (by omega)
    simpa [semanticRerank] using this
  refine ⟨heq, ?_, fun p hp => semanticRerank_subset hp, ?_, ?_, ?_⟩
  · rw [heq]
    exact (sortPairsDesc_pairwise _).sublist
      ((List.take_sublist _ _).trans (List.filter_sublist _))
  · rw [heq]
    exact List.length_take_le _ _
  · intro hlen p hpz hps
    rw [heq] at hlen ⊢
    have hfl : ((sortPairsDesc (filtered.zip sims)).filter
        (fun p => minSim ≤ p.2)).length < maxC := by
      by_contra hcon
      push_neg at hcon
      rw [List.length_take] at hlen
      omega
    rw [List.take_of_length_le (by omega)]
    refine List.mem_filter.mpr ⟨?_, by simpa using hps⟩
    exact (sortPairsDesc_perm (filtered.zip sims)).mem_iff.mpr hpz
  · norm_num [semanticRerank, sortPairsDesc, insertDesc, selectLoop,
      List.zip_cons_cons, List.zip_nil_right]

/-- Witness for C3 at the spec's own example: floor 0.25, cap 2,
similarities 0.1 / 0.3 / 0.5 attached to comments 10 / 20 / 30. -/
theorem semanticRerank_spec_witness :
    (1 ≤ 2) ∧
    semanticRerank [10, 20, 30] [1/10, 3/10, 5/10] (1/4) 2 =
      [(30, 5/10), (20, 3/10)] :=
  ⟨by decide,
   (semanticRerank_spec [10, 20, 30] [1/10, 3/10, 5/10] (1/4) 2
     (by decide)).2.2.2.2.2⟩

/-! ### Comment pipeline (youtube.py, `fetch_relevant_comments`,
lines 244-308).  External collaborators are oracle parameters:
the comment-thread fetch (`yt.commentThreads().list` through
`execute_with_retry`), the `langdetect.detect` call, and the embedder
similarity computation (`embedder.encode` + `util.cos_sim`). -/

/-- C9: `fetch_relevant_comments` never propagates an exception — a
failing comment-thread fetch (HTTP or otherwise) yields `[]`, a
failing similarity computation yields `[]`, a language-detection
failure confined to individual comments drops exactly those comments
(so if detection fails on every text the result is `[]`), and every
comment in the result was positively detected as English. -/
theorem fetch_relevant_comments_error_containment
    (fetchRes : CommentFetch)
    (detectLang : List Char → Except Unit (List Char))
    (simsFor : List (List Char) → Except Unit (List ℚ))
    (brand question : List Char) (mc : Nat) (ms : ℚ) :
    (∀ code, fetchRes = CommentFetch.httpErr code →
      fetch_relevant_comments fetchRes detectLang simsFor brand question mc ms = []) ∧
    (fetchRes = CommentFetch.failed →
      fetch_relevant_comments fetchRes detectLang simsFor brand question mc ms = []) ∧
    ((∀ ts, simsFor ts = Except.error ()) →
      fetch_relevant_comments fetchRes detectLang simsFor brand question mc ms = []) ∧
    ((∀ t, detectLang t = Except.error ()) →
      fetch_relevant_comments fetchRes detectLang simsFor brand question mc ms = []) ∧
    (∀ c s, (c, s) ∈ fetch_relevant_comments fetchRes detectLang simsFor
        brand question mc ms →
      detectLang c.text = Except.ok ("en".toList)) := by
  refine ⟨?_, ?_, ?_, ?_, ?_⟩
  · intro code h; subst h; rfl
  · intro h; subst h; rfl
  · intro hsims
    cases fetchRes with
    | httpErr code => rfl
    | failed => rfl
    | ok items =>
      simp only [fetch_relevant_comments]
      split
      · rfl
      · split
        · rfl
        · rw [hsims]
  · intro hdet
    cases fetchRes with
    | httpErr code => rfl
    | failed => rfl
    | ok items =>
      have hraw : items.filterMap (fun it =>
          match it with
          | none => none
          | some c0 =>
            let txt := yt_normalize c0.text
            if !looks_meaningful txt then none
            else match detectLang txt with
              | .ok l => if l = "en".toList then
                    some { c0 with text := txt } else none
              | .error _ => (none : Option YtComment)) = [] := by
        rw [List.filterMap_eq_nil_iff]
        intro it hit
        cases it with
        | none => rfl
        | some c0 =>
          simp only
          by_cases hm : looks_meaningful (yt_normalize c0.text)
          · simp [hm, hdet (yt_normalize c0.text)]
          · simp [hm]
      simp only [fetch_relevant_comments, hraw]
      rfl
  · intro c s hmem
    cases fetchRes with
    | httpErr code => simp [fetch_relevant_comments] at hmem
    | failed => simp [fetch_relevant_comments] at hmem
    | ok items =>
      simp only [fetch_relevant_comments] at hmem
      split at hmem
      · simp at hmem
      · split at hmem
        · simp at hmem
        · rename_i hne1 hne2
          split at hmem
          · simp at hmem
          · rename_i sims hsims
            have hsub := semanticRerank_subset hmem
            have hcf : c ∈ (items.filterMap (fun it =>
                match it with
                | none => none
                | some c0 =>
                  let txt := yt_normalize c0.text
                  if !looks_meaningful txt then none
                  else match detectLang txt with
                    | .ok l => if l = "en".toList then
                          some { c0 with text := txt } else none
                    | .error _ => (none : Option YtComment))).filter
                (fun cc => (extract_keywords question).any
                  (fun k => containsSub (tolc cc.text) k)) := by
              have hz := hsub.2
              have := List.of_mem_zip hz
              exact this.1
            have hrawmem := List.mem_of_mem_filter hcf
            obtain ⟨it, hit, hf⟩ := List.mem_filterMap.mp hrawmem
            cases it with
            | none => simp at hf
            | some c0 =>
              simp only at hf
              by_cases hm : looks_meaningful (yt_normalize c0.text)
              · simp only [hm, Bool.not_true, Bool.false_eq_true,
                  if_false] at hf
                cases hdetc : detectLang (yt_normalize c0.text) with
                | error e => rw [hdetc] at hf; simp at hf
                | ok l =>
                  rw [hdetc] at hf
                  have hf2 : (if l = "en".toList then
                      some { c0 with text := yt_normalize c0.text }
                      else none) = some c := hf
                  by_cases hl : l = "en".toList
                  · rw [if_pos hl, Option.some.injEq] at hf2
                    have hct : c.text = yt_normalize c0.text := by
                      rw [← hf2]
                    rw [hct, hdetc, hl]
                  · rw [if_neg hl] at hf2
                    simp at hf2
              · simp [hm] at hf

/-- Witness for C9: a failed fetch, a failing similarity oracle and a
failing detector all yield the empty comment list. -/
theorem fetch_relevant_comments_error_containment_witness :
    fetch_relevant_comments CommentFetch.failed
      (fun _ => Except.error ()) (fun _ => Except.error ())
      ("able".toList) ("How durable is the bag?".toList) 5 (1/4) = [] :=
  (fetch_relevant_comments_error_containment CommentFetch.failed
    (fun _ => Except.error ()) (fun _ => Except.error ())
    ("able".toList) ("How durable is the bag?".toList) 5 (1/4)).2.1 rfl

/-! ### URL machinery (webfill.py, SmartURLValidator and
SmartWebScraper, with the semantics of the `urllib.parse` library
functions the source calls: `urlparse`, `parse_qs`, `quote`). -/

/-- Counterexample to C8 as stated: with base domain `example.com`,
the URL `https://example.www.com/page` has host `example.www.com`,
which differs from the base domain even after ignoring a leading
`www.` — yet `is_valid_url` accepts it, because the code removes
EVERY occurrence of the substring `www.` from the host
(`netloc.replace('www.', '')`), turning `example.www.com` into
`example.com`. -/
theorem is_valid_url_accepts_nonleading_www :
    (urlparse ("https://example.www.com/page".toList)).map UrlParts.netloc =
      some ("example.www.com".toList) ∧
    specStripLeadingWww ("example.www.com".toList) ≠
      (SmartURLValidator.init ("example.com".toList)).base_domain ∧
    is_valid_url (SmartURLValidator.init ("example.com".toList))
      ("https://example.www.com/page".toList) = true := by
  refine ⟨by decide, by decide, by decide⟩

/-- C8 (amended): `is_valid_url` returns false for every URL whose
host, after removing every occurrence of the substring `www.` and
lowercasing, differs from the validator's stored base domain (the code
ignores all `www.` occurrences, not only a leading one). -/
theorem is_valid_url_cross_domain (base url : List Char) (p : UrlParts)
    (hp : urlparse url = some p)
    (hd : asciiLower (removeWww p.netloc) ≠
      (SmartURLValidator.init base).base_domain) :
    is_valid_url (SmartURLValidator.init base) url = false := by
  unfold is_valid_url
  split
  · rfl
  · rw [hp]
    simp only
    split
    · rfl
    · have hbne : (asciiLower (removeWww p.netloc) !=
          (SmartURLValidator.init base).base_domain) = true :=
        bne_iff_ne.mpr hd
      rw [if_pos hbne]

/-- Witness for C8's amended theorem: the spec's own example, base
domain `example.com` and URL `https://other.com/page`. -/
theorem is_valid_url_cross_domain_witness :
    (urlparse ("https://other.com/page".toList) =
      some ⟨"https".toList, true, "other.com".toList, "/page".toList,
        [], [], []⟩) ∧
    is_valid_url (SmartURLValidator.init ("example.com".toList))
      ("https://other.com/page".toList) = false :=
  ⟨by decide,
   is_valid_url_cross_domain ("example.com".toList)
     ("https://other.com/page".toList)
     ⟨"https".toList, true, "other.com".toList, "/page".toList, [], [], []⟩
     (by decide) (by decide)⟩

/-! ### C2: frontier deduplication -/

set_option maxHeartbeats 2000000 in
/-- Counterexample to C2 as stated: starting from a fresh scraper for
`example.com` (page cap 50), seeding `https://example.com` (priority
hint 10 as in `__init__`) and then adding `https://example.com/blog`
(priority 6 → regular queue) and `https://example.com/blog/` (priority
16 → priority queue) — two URLs with the SAME canonical form
`https://example.com/blog` — leaves that canonical form live in BOTH
queues at once, and two distinct `get_next_url` calls return it. -/
theorem frontier_double_dequeue :
    normalize_url ("https://example.com/blog".toList) =
      some ("https://example.com/blog".toList) ∧
    normalize_url ("https://example.com/blog/".toList) =
      some ("https://example.com/blog".toList) ∧
    (let st3 := (((SmartWebScraper.mkEmpty ("example.com".toList) 50).add_url
        ("https://example.com".toList) 10).add_url
        ("https://example.com/blog".toList) 0).add_url
        ("https://example.com/blog/".toList) 0
     let d1 := st3.get_next_url
     let d2 := d1.2.get_next_url
     let d3 := d2.2.get_next_url
     st3.priority_urls.contains ("https://example.com/blog".toList) = true ∧
     st3.regular_urls.contains ("https://example.com/blog".toList) = true ∧
     d2.1 = some ("https://example.com/blog".toList) ∧
     d3.1 = some ("https://example.com/blog".toList)) := by
  decide

theorem add_url_queues_nodup (st : SmartWebScraper) (url : List Char)
    (priority : Nat) (h1 : st.priority_urls.Nodup)
    (h2 : st.regular_urls.Nodup) :
    (st.add_url url priority).priority_urls.Nodup ∧
    (st.add_url url priority).regular_urls.Nodup := by
  by_cases hv : is_valid_url st.validator url = true
  · cases hn : normalize_url url with
    | none =>
      simp only [SmartWebScraper.add_url, hv, Bool.not_true, Bool.false_eq_true,
        if_false, hn]
      exact ⟨h1, h2⟩
    | some n =>
      simp only [SmartWebScraper.add_url, hv, Bool.not_true, Bool.false_eq_true,
        if_false, hn]
      by_cases hmem : n ∈ st.visited ∨ n ∈ st.failed_urls
      · rw [if_pos hmem]
        exact ⟨h1, h2⟩
      · rw [if_neg hmem]
        by_cases h8 : 8 ≤ priority + get_url_priority url
        · rw [if_pos h8]
          by_cases hq : n ∈ st.priority_urls
          · rw [if_pos hq]
            exact ⟨h1, h2⟩
          · rw [if_neg hq]
            refine ⟨?_, h2⟩
            refine List.Nodup.append h1 (List.nodup_singleton _) ?_
            intro a ha hb
            simp only [List.mem_singleton] at hb
            subst hb
            exact hq ha
        · rw [if_neg h8]
          by_cases hq : n ∈ st.regular_urls
          · rw [if_pos hq]
            exact ⟨h1, h2⟩
          · rw [if_neg hq]
            refine ⟨h1, ?_⟩
            refine List.Nodup.append h2 (List.nodup_singleton _) ?_
            intro a ha hb
            simp only [List.mem_singleton] at hb
            subst hb
            exact hq ha
  · have hv2 : is_valid_url st.validator url = false := by
      cases h : is_valid_url st.validator url
      · rfl
      · exact absurd h hv
    simp only [SmartWebScraper.add_url, hv2, Bool.not_false, if_true]
    exact ⟨h1, h2⟩

theorem get_next_url_queues_nodup (st : SmartWebScraper)
    (h1 : st.priority_urls.Nodup) (h2 : st.regular_urls.Nodup) :
    (st.get_next_url).2.priority_urls.Nodup ∧
    (st.get_next_url).2.regular_urls.Nodup := by
  unfold SmartWebScraper.get_next_url
  by_cases hcap : st.max_pages ≤ st.page_summaries
  · rw [if_pos hcap]
    exact ⟨h1, h2⟩
  · rw [if_neg hcap]
    cases hp : st.priority_urls with
    | cons n rest =>
      exact ⟨(hp ▸ h1).of_cons, h2⟩
    | nil =>
      cases hr : st.regular_urls with
      | cons n rest =>
        exact ⟨List.nodup_nil, (hr ▸ h2).of_cons⟩
      | nil => exact ⟨h1, h2⟩

/-- C2 (amended): the frontier deduplicates per queue and never
re-enqueues a visited or failed canonical form — in every reachable
frontier state each individual queue is duplicate-free, and an
`add_url` whose canonical form is already in the visited or failed set
leaves both queues unchanged.  (It does NOT deduplicate across the two
queues: the same canonical form can occupy one entry in each, so a
normalized URL may be returned by more than one dequeue.) -/
theorem frontier_queue_invariants :
    (∀ (base : List Char) (mp : Nat) (st : SmartWebScraper),
      FrontReach base mp st →
        st.priority_urls.Nodup ∧ st.regular_urls.Nodup) ∧
    (∀ (st : SmartWebScraper) (url : List Char) (priority : Nat)
        (n : List Char),
      normalize_url url = some n →
      (n ∈ st.visited ∨ n ∈ st.failed_urls) →
      (st.add_url url priority).priority_urls = st.priority_urls ∧
      (st.add_url url priority).regular_urls = st.regular_urls) := by
  constructor
  · intro base mp st hreach
    induction hreach with
    | init => exact ⟨List.nodup_nil, List.nodup_nil⟩
    | step _ hstep ih =>
      cases hstep with
      | add url priority => exact add_url_queues_nodup _ url priority ih.1 ih.2
      | deq => exact get_next_url_queues_nodup _ ih.1 ih.2
      | markVisited n => exact ih
      | markFailed n => exact ih
  · intro st url priority n hn hmem
    by_cases hv : is_valid_url st.validator url = true
    · simp only [SmartWebScraper.add_url, hv, Bool.not_true, Bool.false_eq_true,
        if_false, hn]
      rw [if_pos hmem]
      refine ⟨?_, ?_⟩ <;> trivial
    · have hv2 : is_valid_url st.validator url = false := by
        cases h : is_valid_url st.validator url
        · rfl
        · exact absurd h hv
      simp only [SmartWebScraper.add_url, hv2, Bool.not_false, if_true]
      refine ⟨?_, ?_⟩ <;> trivial

/-- Witness for C2's amended theorem: the reachable state after
seeding a fresh `example.com` scraper has duplicate-free queues, and
adding `https://example.com` again after its canonical form
`https://example.com/` has been marked visited leaves both queues
unchanged. -/
theorem frontier_queue_invariants_witness :
    (((SmartWebScraper.mkEmpty ("example.com".toList) 50).add_url
        ("https://example.com".toList) 10).priority_urls.Nodup ∧
     ((SmartWebScraper.mkEmpty ("example.com".toList) 50).add_url
        ("https://example.com".toList) 10).regular_urls.Nodup) ∧
    (({ SmartWebScraper.mkEmpty ("example.com".toList) 50 with
          visited := [("https://example.com/".toList)] }.add_url
        ("https://example.com".toList) 10).priority_urls =
       ({ SmartWebScraper.mkEmpty ("example.com".toList) 50 with
          visited := [("https://example.com/".toList)] } :
          SmartWebScraper).priority_urls ∧
     ({ SmartWebScraper.mkEmpty ("example.com".toList) 50 with
          visited := [("https://example.com/".toList)] }.add_url
        ("https://example.com".toList) 10).regular_urls =
       ({ SmartWebScraper.mkEmpty ("example.com".toList) 50 with
          visited := [("https://example.com/".toList)] } :
          SmartWebScraper).regular_urls) :=
  ⟨frontier_queue_invariants.1 ("example.com".toList) 50 _
     (FrontReach.step FrontReach.init
       (FrontStep.add _ ("https://example.com".toList) 10)),
   frontier_queue_invariants.2 _ ("https://example.com".toList) 10
     ("https://example.com/".toList) (by decide)
     (Or.inl (List.mem_singleton.mpr rfl))⟩

/-! ### C6: normalize_url idempotence -/

theorem utf8Encode_ne_nil (n : Nat) : utf8Encode n ≠ [] := by
  unfold utf8Encode
  split
  · simp
  · split
    · simp
    · split <;> simp

theorem utf8Encode_lt (n : Nat) (hn : n < 0x110000) :
    ∀ b ∈ utf8Encode n, b < 256 := by
  intro b hb
  unfold utf8Encode at hb
  split at hb
  · simp at hb; omega
  · split at hb
    · simp at hb
      rcases hb with h | h <;> omega
    · split at hb
      · simp at hb
        rcases hb with h | h | h <;> omega
      · simp at hb
        rcases hb with h | h | h | h <;> omega

theorem utf8DecodeGo_encode_cons (c : Char) (bs : List Nat) (fuel : Nat) :
    utf8DecodeGo (fuel + 1) (utf8Encode c.toNat ++ bs) =
      c :: utf8DecodeGo fuel bs := by
  have hv : c.toNat < 0xD800 ∨ (0xDFFF < c.toNat ∧ c.toNat < 0x110000) := c.valid
  have hofn : Char.ofNat c.toNat = c := Char.ofNat_toNat c
  by_cases h1 : c.toNat < 0x80
  · rw [utf8Encode, if_pos h1]
    simp only [List.cons_append, List.nil_append, utf8DecodeGo, if_pos h1, hofn,
      List.append_eq]
  · by_cases h2 : c.toNat < 0x800
    · rw [utf8Encode, if_neg h1, if_pos h2]
      simp only [List.cons_append, List.nil_append, utf8DecodeGo, List.append_eq,
        List.singleton_append]
      rw [if_neg (by omega), if_neg (by omega), if_pos (by omega)]
      have hc1 : isContByte (0x80 + c.toNat % 64) = true := by
        simp [isContByte]; omega
      rw [hc1]
      have harith : (0xC0 + c.toNat / 64 - 0xC0) * 64 + (0x80 + c.toNat % 64 - 0x80) =
          c.toNat := by omega
      rw [if_pos rfl, harith, hofn]
    · by_cases h3 : c.toNat < 0x10000
      · rw [utf8Encode, if_neg h1, if_neg h2, if_pos h3]
        simp only [List.cons_append, List.nil_append, utf8DecodeGo, List.append_eq,
          List.singleton_append]
        rw [if_neg (by omega), if_neg (by omega), if_neg (by omega), if_pos (by omega)]
        have hc1 : isContByte (0x80 + c.toNat / 64 % 64) = true := by
          simp [isContByte]; omega
        have hc2 : isContByte (0x80 + c.toNat % 64) = true := by
          simp [isContByte]; omega
        rw [hc1, hc2]
        simp only [Bool.and_self, eq_self_iff_true, if_true]
        have e2 : c.toNat / 64 / 64 = c.toNat / 4096 := by
          rw [Nat.div_div_eq_div_mul]
        have harith : (0xE0 + c.toNat / 4096 - 0xE0) * 4096 +
            (0x80 + c.toNat / 64 % 64 - 0x80) * 64 + (0x80 + c.toNat % 64 - 0x80) =
            c.toNat := by omega
        rw [harith]
        simp only [Bool.or_eq_true, Bool.and_eq_true, decide_eq_true_eq]
        rw [if_neg (by rcases hv with h | h <;> omega), hofn]
      · have h4 : c.toNat < 0x110000 := by omega
        rw [utf8Encode, if_neg h1, if_neg h2, if_neg h3]
        simp only [List.cons_append, List.nil_append, utf8DecodeGo, List.append_eq,
          List.singleton_append]
        rw [if_neg (by omega), if_neg (by omega), if_neg (by omega), if_neg (by omega),
          if_pos (by omega)]
        have hc1 : isContByte (0x80 + c.toNat / 4096 % 64) = true := by
          simp [isContByte]; omega
        have hc2 : isContByte (0x80 + c.toNat / 64 % 64) = true := by
          simp [isContByte]; omega
        have hc3 : isContByte (0x80 + c.toNat % 64) = true := by
          simp [isContByte]; omega
        rw [hc1, hc2, hc3]
        simp only [Bool.and_self, eq_self_iff_true, if_true]
        have e1 : c.toNat / 4096 / 64 = c.toNat / 262144 := by
          rw [Nat.div_div_eq_div_mul]
        have e2 : c.toNat / 64 / 64 = c.toNat / 4096 := by
          rw [Nat.div_div_eq_div_mul]
        have harith : (0xF0 + c.toNat / 262144 - 0xF0) * 262144 +
            (0x80 + c.toNat / 4096 % 64 - 0x80) * 4096 +
            (0x80 + c.toNat / 64 % 64 - 0x80) * 64 + (0x80 + c.toNat % 64 - 0x80) =
            c.toNat := by omega
        rw [harith]
        simp only [Bool.or_eq_true, Bool.and_eq_true, decide_eq_true_eq]
        rw [if_neg (by omega), hofn]

theorem length_le_encodeAll (us : List Char) :
    us.length ≤ (encodeAll us).length := by
  induction us with
  | nil => simp [encodeAll]
  | cons c rest ih =>
    simp only [encodeAll, List.flatMap_cons, List.length_append, List.length_cons]
    have h1 : 1 ≤ (utf8Encode c.toNat).length := by
      cases h : utf8Encode c.toNat with
      | nil => exact absurd h (utf8Encode_ne_nil _)
      | cons b bs => simp
    have h2 := ih
    simp only [encodeAll] at h2
    omega

theorem utf8DecodeGo_encodeAll (us : List Char) (fuel : Nat)
    (h : us.length ≤ fuel) : utf8DecodeGo fuel (encodeAll us) = us := by
  induction us generalizing fuel with
  | nil => cases fuel <;> rfl
  | cons c rest ih =>
    cases fuel with
    | zero => simp at h
    | succ f =>
      rw [show encodeAll (c :: rest) = utf8Encode c.toNat ++ encodeAll rest from rfl]
      rw [utf8DecodeGo_encode_cons]
      rw [ih f (by simp at h; omega)]

theorem utf8Decode_encodeAll (us : List Char) :
    utf8Decode (encodeAll us) = us := by
  rw [utf8Decode]
  exact utf8DecodeGo_encodeAll us _ (length_le_encodeAll us)

theorem hexDigitU_facts (n : Nat) (h : n < 16) :
    hexVal (hexDigitU n) = some n ∧ 32 < (hexDigitU n).toNat ∧
    hexDigitU n ≠ '#' ∧ hexDigitU n ≠ '&' ∧ hexDigitU n ≠ '=' ∧
    hexDigitU n ≠ '+' ∧ hexDigitU n ≠ '%' ∧ hexDigitU n ≠ '?' ∧
    hexDigitU n ≠ ';' ∧ hexDigitU n ≠ '/' := by
  interval_cases n <;> exact ⟨rfl, by decide, by decide, by decide, by decide,
    by decide, by decide, by decide, by decide, by decide⟩

/-- One percent-encoded byte run is consumed as a unit. -/
theorem unquoteAux_hexRun (bytes : List Nat) (w : List Char) (buf : List Nat)
    (hb : ∀ b ∈ bytes, b < 256) :
    unquoteAux (bytes.flatMap byteToHex ++ w) buf =
      unquoteAux w (bytes.reverse ++ buf) := by
  induction bytes generalizing buf with
  | nil => simp
  | cons b bs ih =>
    have hblt : b < 256 := hb b (by simp)
    have hd1 : b / 16 < 16 := by omega
    have hd2 : b % 16 < 16 := by omega
    simp only [List.flatMap_cons, byteToHex, List.cons_append, List.append_assoc]
    rw [unquoteAux]
    rw [(hexDigitU_facts _ hd1).1, (hexDigitU_facts _ hd2).1]
    simp only
    have harith : 16 * (b / 16) + b % 16 = b := by omega
    rw [harith]
    simp only [List.nil_append]
    rw [ih (b :: buf) (fun x hx => hb x (List.mem_cons_of_mem _ hx))]
    simp

theorem safeChar_ne (c : Char) (h : safeChar c = true) :
    c ≠ '%' ∧ c ≠ '+' ∧ c ≠ '#' ∧ c ≠ '&' ∧ c ≠ '=' ∧ c ≠ '?' ∧ c ≠ ';' := by
  refine ⟨?_, ?_, ?_, ?_, ?_, ?_, ?_⟩ <;>
    · intro he
      rw [he] at h
      exact absurd h (by decide)

theorem charLe_toNat {a b : Char} (h : a ≤ b) : a.toNat ≤ b.toNat := h

theorem isAlpha_gt32 (c : Char) (h : c.isAlpha = true) : 32 < c.toNat := by
  simp only [Char.isAlpha, Char.isUpper, Char.isLower, Bool.or_eq_true,
    Bool.and_eq_true, decide_eq_true_eq] at h
  rcases h with ⟨h1, _⟩ | ⟨h1, _⟩
  · have h2 : ('A').toNat ≤ c.toNat := charLe_toNat h1
    have : ('A').toNat = 65 := rfl
    omega
  · have h2 : ('a').toNat ≤ c.toNat := charLe_toNat h1
    have : ('a').toNat = 97 := rfl
    omega

theorem safeChar_gt32 (c : Char) (h : safeChar c = true) : 32 < c.toNat := by
  simp only [safeChar, Bool.or_eq_true, beq_iff_eq] at h
  rcases h with ((((((ha | hd) | h_) | hp) | hm) | ht) | hs)
  · exact isAlpha_gt32 c ha
  · simp only [Char.isDigit, Bool.and_eq_true, decide_eq_true_eq] at hd
    have h2 : ('0').toNat ≤ c.toNat := charLe_toNat hd.1
    have : ('0').toNat = 48 := rfl
    omega
  · rw [h_]; decide
  · rw [hp]; decide
  · rw [hm]; decide
  · rw [ht]; decide
  · rw [hs]; decide

/-- Character-level facts about the output of `quote`: every emitted
character exceeds space and is none of the URL metacharacters. -/
theorem pyQuote_char_facts (v : List Char) :
    ∀ c ∈ pyQuote v, 32 < c.toNat ∧ c ≠ '#' ∧ c ≠ '&' ∧ c ≠ '=' ∧
      c ≠ '+' ∧ c ≠ '?' ∧ c ≠ ';' := by
  intro c hc
  simp only [pyQuote, List.mem_flatMap] at hc
  obtain ⟨x, _, hcx⟩ := hc
  rw [quoteChar] at hcx
  split at hcx
  · rename_i hsafe
    simp only [List.mem_singleton] at hcx
    subst hcx
    have h1 := safeChar_ne c hsafe
    exact ⟨safeChar_gt32 c hsafe, h1.2.2.1, h1.2.2.2.1, h1.2.2.2.2.1,
      h1.2.1, h1.2.2.2.2.2.1, h1.2.2.2.2.2.2⟩
  · rename_i hunsafe
    simp only [List.mem_flatMap] at hcx
    obtain ⟨b, hb, hcb⟩ := hcx
    have hv : x.toNat < 0x110000 := by
      have hvv : x.toNat < 0xD800 ∨ (0xDFFF < x.toNat ∧ x.toNat < 0x110000) := x.valid
      omega
    have hblt : b < 256 := utf8Encode_lt x.toNat hv b hb
    rw [byteToHex] at hcb
    simp only [List.mem_cons, List.mem_singleton] at hcb
    rcases hcb with h | h | h
    · subst h
      exact ⟨by decide, by decide, by decide, by decide, by decide, by decide,
        by decide⟩
    · subst h
      have hf := hexDigitU_facts (b / 16) (by omega)
      exact ⟨hf.2.1, hf.2.2.1, hf.2.2.2.1, hf.2.2.2.2.1, hf.2.2.2.2.2.1,
        hf.2.2.2.2.2.2.2.1, hf.2.2.2.2.2.2.2.2.1⟩
    · rcases h with h | h
      · subst h
        have hf := hexDigitU_facts (b % 16) (by omega)
        exact ⟨hf.2.1, hf.2.2.1, hf.2.2.2.1, hf.2.2.2.2.1, hf.2.2.2.2.2.1,
          hf.2.2.2.2.2.2.2.1, hf.2.2.2.2.2.2.2.2.1⟩
      · simp at h

/-- A non-`%` character ends the current `%XX` run and passes through. -/
theorem unquoteAux_cons_ne (c : Char) (w : List Char) (buf : List Nat)
    (hc : c ≠ '%') :
    unquoteAux (c :: w) buf = utf8Decode buf.reverse ++ c :: unquoteAux w [] := by
  rw [unquoteAux.eq_def]
  split
  · rename_i h
    simp at h
  · rename_i h1 h2 rest heq
    rw [List.cons.injEq] at heq
    exact absurd heq.1 hc
  · rename_i c' rest' hcond h
    rw [List.cons.injEq] at h
    rw [h.1, h.2]

/-- The heart of the `quote`/`unquote_plus` round trip. -/
theorem unquoteAux_pyQuote (v : List Char) :
    ∀ us : List Char, unquoteAux (pyQuote v) (encodeAll us).reverse = us ++ v := by
  induction v with
  | nil =>
    intro us
    show unquoteAux [] (encodeAll us).reverse = us ++ []
    rw [unquoteAux, List.reverse_reverse, utf8Decode_encodeAll, List.append_nil]
  | cons c rest ih =>
    intro us
    show unquoteAux (quoteChar c ++ pyQuote rest) (encodeAll us).reverse = us ++ c :: rest
    rw [quoteChar]
    split
    · rename_i hsafe
      rw [List.singleton_append,
        unquoteAux_cons_ne c _ _ (safeChar_ne c hsafe).1,
        List.reverse_reverse, utf8Decode_encodeAll]
      have h2 := ih []
      rw [show encodeAll [] = [] from rfl] at h2
      simp only [List.reverse_nil, List.nil_append] at h2
      rw [h2]
    · rename_i hunsafe
      have hv : c.toNat < 0x110000 := by
        have hvv : c.toNat < 0xD800 ∨ (0xDFFF < c.toNat ∧ c.toNat < 0x110000) :=
          c.valid
        omega
      rw [unquoteAux_hexRun _ _ _ (utf8Encode_lt c.toNat hv)]
      have h2 := ih (us ++ [c])
      rw [show encodeAll (us ++ [c]) = encodeAll us ++ utf8Encode c.toNat by
        simp [encodeAll]] at h2
      rw [List.reverse_append] at h2
      rw [h2]
      simp

/-- `unquote_plus(quote(v, safe='/')) == v`. -/
theorem unquotePlus_pyQuote (v : List Char) : unquotePlus (pyQuote v) = v := by
  rw [unquotePlus]
  have hmap : (pyQuote v).map (fun c => if c = '+' then ' ' else c) = pyQuote v := by
    have hfun : ∀ a ∈ pyQuote v,
        (fun c => if c = '+' then ' ' else c) a = id a := by
      intro a ha
      simp only [id]
      rw [if_neg (pyQuote_char_facts v a ha).2.2.2.2.1]
    rw [List.map_congr_left hfun, List.map_id]
  rw [hmap]
  have h := unquoteAux_pyQuote v []
  rw [show encodeAll [] = [] from rfl] at h
  simp only [List.reverse_nil, List.nil_append] at h
  exact h

/-! ### generic list splitting lemmas -/

theorem takeWhile_append_all (p : Char → Bool) (A : List Char) (b : Char)
    (B : List Char) (hA : ∀ a ∈ A, p a = true) (hb : p b = false) :
    (A ++ b :: B).takeWhile p = A := by
  induction A with
  | nil => simp [List.takeWhile_cons, hb]
  | cons a rest ih =>
    simp only [List.cons_append, List.takeWhile_cons, hA a (by simp), if_true]
    rw [ih (fun x hx => hA x (List.mem_cons_of_mem _ hx))]

theorem dropWhile_append_all (p : Char → Bool) (A : List Char) (b : Char)
    (B : List Char) (hA : ∀ a ∈ A, p a = true) (hb : p b = false) :
    (A ++ b :: B).dropWhile p = b :: B := by
  induction A with
  | nil => simp [List.dropWhile_cons, hb]
  | cons a rest ih =>
    simp only [List.cons_append, List.dropWhile_cons, hA a (by simp), if_true]
    exact ih (fun x hx => hA x (List.mem_cons_of_mem _ hx))

theorem takeWhile_all (p : Char → Bool) (A : List Char)
    (hA : ∀ a ∈ A, p a = true) : A.takeWhile p = A := by
  induction A with
  | nil => rfl
  | cons a rest ih =>
    simp only [List.takeWhile_cons, hA a (by simp), if_true]
    rw [ih (fun x hx => hA x (List.mem_cons_of_mem _ hx))]

theorem dropWhile_all (p : Char → Bool) (A : List Char)
    (hA : ∀ a ∈ A, p a = true) : A.dropWhile p = [] := by
  induction A with
  | nil => rfl
  | cons a rest ih =>
    simp only [List.dropWhile_cons, hA a (by simp), if_true]
    exact ih (fun x hx => hA x (List.mem_cons_of_mem _ hx))

theorem dropWhile_head_false (p : Char → Bool) (l : List Char)
    (h : ∀ c ∈ l.head?, p c = false) : l.dropWhile p = l := by
  cases l with
  | nil => rfl
  | cons a rest =>
    simp only [List.head?_cons, Option.mem_some_iff] at h
    rw [List.dropWhile_cons, if_neg (by rw [h a rfl]; simp)]

theorem findIdx?_colon_append (S R : List Char) (i : Nat)
    (hS : ∀ c ∈ S, (c == ':') = false) :
    List.findIdx? (fun c => c == ':') (S ++ ':' :: R) i = some (S.length + i) := by
  induction S generalizing i with
  | nil => simp [List.findIdx?_cons]
  | cons a rest ih =>
    simp only [List.cons_append, List.findIdx?_cons, hS a (by simp),
      Bool.false_eq_true, if_false]
    rw [ih (i + 1) (fun x hx => hS x (List.mem_cons_of_mem _ hx))]
    simp only [List.length_cons]
    congr 1
    omega

theorem contains_append_cons (A : List Char) (b : Char) (B : List Char) :
    (A ++ b :: B).contains b = true := by
  simp [List.contains, List.elem_eq_mem]

theorem not_contains_of_all_ne (A : List Char) (b : Char)
    (hA : ∀ a ∈ A, a ≠ b) : A.contains b = false := by
  simp only [List.contains, List.elem_eq_mem, decide_eq_false_iff_not]
  intro hmem
  exact hA b hmem rfl

theorem splitAtFirst_append (sep : Char) (A B : List Char)
    (hA : ∀ a ∈ A, a ≠ sep) :
    splitAtFirst sep (A ++ sep :: B) = (A, B) := by
  rw [splitAtFirst, if_pos (by rw [contains_append_cons])]
  rw [takeWhile_append_all _ A sep B (fun a ha => by
      simp only [bne_iff_ne, ne_eq, decide_eq_true_eq]
      exact hA a ha) (by simp)]
  rw [dropWhile_append_all _ A sep B (fun a ha => by
      simp only [bne_iff_ne, ne_eq, decide_eq_true_eq]
      exact hA a ha) (by simp)]
  simp

theorem splitAtFirst_no_sep (sep : Char) (A : List Char)
    (hA : ∀ a ∈ A, a ≠ sep) : splitAtFirst sep A = (A, []) := by
  rw [splitAtFirst, if_neg (by rw [not_contains_of_all_ne A sep hA]; simp)]

theorem splitOnChar_no_sep (sep : Char) (A : List Char)
    (hA : ∀ a ∈ A, a ≠ sep) : splitOnChar sep A = [A] := by
  induction A with
  | nil => rfl
  | cons a rest ih =>
    rw [splitOnChar, if_neg (hA a (by simp)),
      ih (fun x hx => hA x (List.mem_cons_of_mem _ hx))]

theorem splitOnChar_append_sep (sep : Char) (A B : List Char)
    (hA : ∀ a ∈ A, a ≠ sep) :
    splitOnChar sep (A ++ sep :: B) = A :: splitOnChar sep B := by
  induction A with
  | nil => simp [splitOnChar]
  | cons a rest ih =>
    rw [List.cons_append, splitOnChar, if_neg (hA a (by simp)),
      ih (fun x hx => hA x (List.mem_cons_of_mem _ hx))]

theorem splitOnChar_joinAmp (fields : List (List Char)) (hne : fields ≠ [])
    (hf : ∀ f ∈ fields, ∀ c ∈ f, c ≠ '&') :
    splitOnChar '&' (joinAmp fields) = fields := by
  induction fields with
  | nil => exact absurd rfl hne
  | cons f fs ih =>
    cases fs with
    | nil =>
      rw [joinAmp]
      exact splitOnChar_no_sep '&' f (hf f (by simp))
    | cons g gs =>
      rw [joinAmp, splitOnChar_append_sep '&' f _ (hf f (by simp))]
      rw [ih (List.cons_ne_nil g gs) (fun x hx => hf x (List.mem_cons_of_mem _ hx))]
      all_goals exact fun hcon => List.noConfusion hcon

theorem urlPre_id (v : List Char)
    (hall : ∀ c ∈ v, (!(c == '\t' || c == '\n' || c == '\r')) = true)
    (hh : ∀ c ∈ v.head?, isC0OrSpace c = false)
    (hl : ∀ c ∈ v.getLast?, isC0OrSpace c = false) :
    urlPre v = v := by
  rw [urlPre]
  rw [dropWhile_head_false _ v hh]
  rw [dropWhile_head_false _ v.reverse (by
    intro c hc
    rw [List.head?_reverse] at hc
    exact hl c hc)]
  rw [List.reverse_reverse]
  exact List.filter_eq_self.mpr hall

/-- `unquote` is the identity on `%`-free text. -/
theorem unquoteAux_no_pct (A : List Char) (hA : ∀ a ∈ A, a ≠ '%') :
    unquoteAux A [] = A := by
  induction A with
  | nil => rfl
  | cons a rest ih =>
    rw [unquoteAux_cons_ne a rest [] (hA a (by simp))]
    rw [ih (fun x hx => hA x (List.mem_cons_of_mem _ hx))]
    rfl

theorem unquotePlus_id (A : List Char)
    (hA : ∀ a ∈ A, a ≠ '%' ∧ a ≠ '+') : unquotePlus A = A := by
  rw [unquotePlus]
  have hmap : A.map (fun c => if c = '+' then ' ' else c) = A := by
    have hfun : ∀ a ∈ A, (fun c => if c = '+' then ' ' else c) a = id a := by
      intro a ha
      simp only [id]
      rw [if_neg (hA a ha).2]
    rw [List.map_congr_left hfun, List.map_id]
  rw [hmap]
  exact unquoteAux_no_pct A (fun a ha => (hA a ha).1)

theorem quoteChar_ne_nil (c : Char) : quoteChar c ≠ [] := by
  rw [quoteChar]
  split
  · simp
  · have h := utf8Encode_ne_nil c.toNat
    cases he : utf8Encode c.toNat with
    | nil => exact absurd he h
    | cons b bs => simp [he, byteToHex]

theorem pyQuote_ne_nil (v : List Char) (hv : v ≠ []) : pyQuote v ≠ [] := by
  cases v with
  | nil => exact absurd rfl hv
  | cons c rest =>
    rw [pyQuote, List.flatMap_cons]
    intro h
    rw [List.append_eq_nil] at h
    exact quoteChar_ne_nil c h.1

theorem utf8Decode_ne_nil (bs : List Nat) (h : bs ≠ []) :
    utf8Decode bs ≠ [] := by
  cases bs with
  | nil => exact absurd rfl h
  | cons b rest =>
    rw [utf8Decode, List.length_cons, utf8DecodeGo.eq_def]
    repeat' split
    all_goals simp_all

theorem unquoteAux_ne_nil (A : List Char) (buf : List Nat) :
    A ≠ [] ∨ buf ≠ [] → unquoteAux A buf ≠ [] := by
  induction A, buf using unquoteAux.induct with
  | case1 buf =>
    intro h
    rcases h with h | h
    · exact absurd rfl h
    · exact utf8Decode_ne_nil _ (by simp [h])
  | case2 h1 h2 rest buf a b hx1 hx2 ih =>
    intro _
    rw [unquoteAux, hx1, hx2]
    exact ih (Or.inr (List.cons_ne_nil _ _))
  | case3 h1 h2 rest buf hno ih =>
    intro _
    rw [unquoteAux]
    cases hx1 : hexVal h1 with
    | none =>
      simp only
      intro hcon
      rw [List.append_eq_nil] at hcon
      exact absurd hcon.2 (List.cons_ne_nil _ _)
    | some a =>
      cases hx2 : hexVal h2 with
      | none =>
        simp only
        intro hcon
        rw [List.append_eq_nil] at hcon
        exact absurd hcon.2 (List.cons_ne_nil _ _)
      | some b => exact (hno a b hx1 hx2).elim
  | case4 c rest buf hno ih =>
    intro _
    cases rest with
    | nil =>
      rw [unquoteAux.eq_def]
      split
      all_goals simp_all
    | cons x xs =>
      cases xs with
      | nil =>
        rw [unquoteAux.eq_def]
        split
        all_goals simp_all
      | cons y zs =>
        have hc : c ≠ '%' := fun he => hno x y zs he rfl
        rw [unquoteAux_cons_ne c (x :: y :: zs) buf hc]
        intro hcon
        rw [List.append_eq_nil] at hcon
        exact absurd hcon.2 (List.cons_ne_nil _ _)

theorem unquotePlus_ne_nil (A : List Char) (hA : A ≠ []) :
    unquotePlus A ≠ [] := by
  rw [unquotePlus]
  apply unquoteAux_ne_nil
  simp [hA]

theorem toNat_ne' (c d : Char) (h : c.toNat ≠ d.toNat) : c ≠ d := by
  intro he
  exact h (he ▸ rfl)

theorem isLower_range (c : Char) (h : c.isLower = true) :
    97 ≤ c.toNat ∧ c.toNat ≤ 122 := by
  simp only [Char.isLower, Bool.and_eq_true, decide_eq_true_eq] at h
  exact ⟨h.1, h.2⟩

/-- Characters of a query key whose ASCII-lowercasing is a lowercase
letter: printable and none of the query metacharacters. -/
theorem key_char_facts (c : Char) (hda : (asciiLowerChar c).isLower = true) :
    32 < c.toNat ∧ c ≠ '#' ∧ c ≠ '&' ∧ c ≠ '=' ∧ c ≠ '+' ∧ c ≠ '%' ∧
    c ≠ '?' ∧ c ≠ '/' := by
  have e1 : ('#').toNat = 35 := rfl
  have e2 : ('&').toNat = 38 := rfl
  have e3 : ('=').toNat = 61 := rfl
  have e4 : ('+').toNat = 43 := rfl
  have e5 : ('%').toNat = 37 := rfl
  have e6 : ('?').toNat = 63 := rfl
  have e7 : ('/').toNat = 47 := rfl
  rw [asciiLowerChar] at hda
  split at hda
  · rename_i hup
    have h1 : 65 ≤ c.toNat := charLe_toNat hup.1
    have h2 : c.toNat ≤ 90 := charLe_toNat hup.2
    exact ⟨by omega, toNat_ne' _ _ (by omega), toNat_ne' _ _ (by omega),
      toNat_ne' _ _ (by omega), toNat_ne' _ _ (by omega),
      toNat_ne' _ _ (by omega), toNat_ne' _ _ (by omega),
      toNat_ne' _ _ (by omega)⟩
  · have hr := isLower_range c hda
    exact ⟨by omega, toNat_ne' _ _ (by omega), toNat_ne' _ _ (by omega),
      toNat_ne' _ _ (by omega), toNat_ne' _ _ (by omega),
      toNat_ne' _ _ (by omega), toNat_ne' _ _ (by omega),
      toNat_ne' _ _ (by omega)⟩

theorem importantParams_lower : ∀ w ∈ importantParams, w.all Char.isLower = true := by
  decide

theorem importantParams_ne_nil : ∀ w ∈ importantParams, w ≠ [] := by
  decide

/-- Facts about a key accepted by the `important_params` filter. -/
theorem important_key_facts (k : List Char) (h : asciiLower k ∈ importantParams) :
    k ≠ [] ∧ ∀ c ∈ k, 32 < c.toNat ∧ c ≠ '#' ∧ c ≠ '&' ∧ c ≠ '=' ∧
      c ≠ '+' ∧ c ≠ '%' ∧ c ≠ '?' ∧ c ≠ '/' := by
  constructor
  · intro he
    subst he
    exact absurd h (by decide)
  · intro c hc
    have hmem : asciiLowerChar c ∈ asciiLower k := List.mem_map_of_mem _ hc
    have hlow := importantParams_lower _ h
    rw [List.all_eq_true] at hlow
    exact key_char_facts c (hlow _ hmem)

/-! ### `parse_qs` structure -/

theorem insertQS_keys (acc : List (List Char × List (List Char)))
    (k v : List Char) :
    (insertQS acc k v).map Prod.fst =
      if k ∈ acc.map Prod.fst then acc.map Prod.fst
      else acc.map Prod.fst ++ [k] := by
  induction acc with
  | nil => simp [insertQS]
  | cons kv rest ih =>
    obtain ⟨k0, vs⟩ := kv
    rw [insertQS]
    by_cases he : k0 = k
    · subst he
      rw [if_pos rfl]
      simp
    · rw [if_neg he]
      simp only [List.map_cons, ih, List.mem_cons]
      by_cases hm : k ∈ rest.map Prod.fst
      · rw [if_pos hm, if_pos (Or.inr hm)]
      · rw [if_neg hm, if_neg (by
          intro hor
          rcases hor with h1 | h1
          · exact he h1.symm
          · exact hm h1)]
        simp

theorem insertQS_fresh (acc : List (List Char × List (List Char)))
    (k v : List Char) (h : k ∉ acc.map Prod.fst) :
    insertQS acc k v = acc ++ [(k, [v])] := by
  induction acc with
  | nil => simp [insertQS]
  | cons kv rest ih =>
    obtain ⟨k0, vs⟩ := kv
    simp only [List.map_cons, List.mem_cons] at h
    push_neg at h
    rw [insertQS, if_neg (fun he => h.1 he.symm), ih h.2]
    simp

theorem parse_qs_keys_nodup (q : List Char) :
    ((parse_qs q).map Prod.fst).Nodup := by
  rw [parse_qs]
  generalize parse_qsl q = kvs
  have hgen : ∀ (kvs : List (List Char × List Char))
      (acc : List (List Char × List (List Char))),
      (acc.map Prod.fst).Nodup →
      ((kvs.foldl (fun acc kv => insertQS acc kv.1 kv.2) acc).map Prod.fst).Nodup := by
    intro kvs
    induction kvs with
    | nil => intro acc h; exact h
    | cons kv rest ih =>
      intro acc h
      rw [List.foldl_cons]
      apply ih
      rw [insertQS_keys]
      split
      · exact h
      · rename_i hm
        rw [List.nodup_append]
        exact ⟨h, List.nodup_singleton _, by simp [hm]⟩
  exact hgen kvs [] (by simp)

theorem parse_qs_values_ne_nil (q : List Char) :
    ∀ kv ∈ parse_qs q, ∀ w ∈ kv.2, w ≠ [] := by
  have hqsl : ∀ kv ∈ parse_qsl q, kv.2 ≠ [] := by
    intro kv hkv
    rw [parse_qsl] at hkv
    rw [List.mem_filterMap] at hkv
    obtain ⟨f, _, hf⟩ := hkv
    split at hf
    · exact absurd hf (by simp)
    · split at hf
      · exact absurd hf (by simp)
      · rename_i k v heq
        split at hf
        · exact absurd hf (by simp)
        · rename_i hvne
          rw [Option.some.injEq] at hf
          subst hf
          exact unquotePlus_ne_nil v (by simpa using hvne)
  rw [parse_qs]
  have hgen : ∀ (kvs : List (List Char × List Char))
      (acc : List (List Char × List (List Char))),
      (∀ kv ∈ kvs, kv.2 ≠ []) →
      (∀ kv ∈ acc, ∀ w ∈ kv.2, w ≠ []) →
      ∀ kv ∈ kvs.foldl (fun acc kv => insertQS acc kv.1 kv.2) acc,
        ∀ w ∈ kv.2, w ≠ [] := by
    intro kvs
    induction kvs with
    | nil => intro acc _ hacc; exact hacc
    | cons kv0 rest ih =>
      intro acc hkvs hacc
      rw [List.foldl_cons]
      apply ih
      · intro x hx
        exact hkvs x (List.mem_cons_of_mem _ hx)
      · have hv0 : kv0.2 ≠ [] := hkvs kv0 (by simp)
        clear ih hkvs
        induction acc with
        | nil =>
          simp only [insertQS]
          intro kv hkv w hw
          simp only [List.mem_singleton] at hkv
          subst hkv
          simp only [List.mem_singleton] at hw
          subst hw
          exact hv0
        | cons a rest2 ih2 =>
          obtain ⟨k0, vs⟩ := a
          rw [insertQS]
          split
          · intro kv hkv w hw
            rcases List.mem_cons.mp hkv with h1 | h1
            · subst h1
              simp only at hw
              rcases List.mem_append.mp hw with h2 | h2
              · exact hacc (k0, vs) (by simp) w h2
              · simp only [List.mem_singleton] at h2
                subst h2
                exact hv0
            · exact hacc kv (List.mem_cons_of_mem _ h1) w hw
          · intro kv hkv w hw
            rcases List.mem_cons.mp hkv with h1 | h1
            · subst h1
              exact hacc (k0, vs) (by simp) w hw
            · exact ih2 (fun x hx => hacc x (List.mem_cons_of_mem _ hx)) kv h1 w hw
  exact hgen (parse_qsl q) [] hqsl (by simp)

theorem cleanParams_keys_sublist (q : List Char) :
    List.Sublist ((cleanParams q).map Prod.fst) ((parse_qs q).map Prod.fst) := by
  rw [cleanParams]
  generalize parse_qs q = l
  induction l with
  | nil => simp
  | cons kv rest ih =>
    rw [List.filterMap_cons]
    split
    · exact ih.cons _
    · rename_i v hv
      split at hv
      · split at hv
        · rw [Option.some.injEq] at hv
          subst hv
          simp only [List.map_cons]
          exact ih.cons₂ _
        · exact absurd hv (by simp)
      · exact absurd hv (by simp)

theorem cleanParams_mem_facts (q : List Char) :
    ∀ kv ∈ cleanParams q, asciiLower kv.1 ∈ importantParams ∧ kv.2 ≠ [] := by
  intro kv hkv
  rw [cleanParams, List.mem_filterMap] at hkv
  obtain ⟨src, hsrc, hf⟩ := hkv
  split at hf
  · rename_i himp
    split at hf
    · rename_i v vrest hvs
      rw [Option.some.injEq] at hf
      subst hf
      refine ⟨himp, ?_⟩
      exact parse_qs_values_ne_nil q src hsrc v (by rw [hvs]; simp)
    · exact absurd hf (by simp)
  · exact absurd hf (by simp)

theorem cleanParams_keys_nodup (q : List Char) :
    ((cleanParams q).map Prod.fst).Nodup :=
  (parse_qs_keys_nodup q).sublist (cleanParams_keys_sublist q)

theorem field_roundtrip (k v : List Char)
    (hk : asciiLower k ∈ importantParams) (hv : v ≠ []) :
    (if (k ++ '=' :: pyQuote v).isEmpty then none
     else match splitAtFirstEq (k ++ '=' :: pyQuote v) with
       | none => none
       | some (k', v') =>
         if v'.isEmpty then none
         else some (unquotePlus k', unquotePlus v')) = some (k, v) := by
  have hkf := important_key_facts k hk
  rw [if_neg (by cases k <;> simp)]
  have hsplit : splitAtFirstEq (k ++ '=' :: pyQuote v) = some (k, pyQuote v) := by
    rw [splitAtFirstEq, if_pos (by rw [contains_append_cons])]
    rw [takeWhile_append_all _ k '=' _ (fun a ha => by
        simp only [bne_iff_ne, ne_eq, decide_eq_true_eq]
        exact (hkf.2 a ha).2.2.2.1) (by simp)]
    rw [dropWhile_append_all _ k '=' _ (fun a ha => by
        simp only [bne_iff_ne, ne_eq, decide_eq_true_eq]
        exact (hkf.2 a ha).2.2.2.1) (by simp)]
    simp
  rw [hsplit]
  simp only
  rw [if_neg (by simpa using pyQuote_ne_nil v hv)]
  rw [unquotePlus_pyQuote]
  rw [unquotePlus_id k (fun a ha =>
    ⟨(hkf.2 a ha).2.2.2.2.2.1, (hkf.2 a ha).2.2.2.2.1⟩)]

theorem parse_qsl_buildQuery (clean : List (List Char × List Char))
    (hprops : ∀ kv ∈ clean, asciiLower kv.1 ∈ importantParams ∧ kv.2 ≠ [])
    (hne : clean ≠ []) :
    parse_qsl (buildQuery clean) = clean := by
  rw [parse_qsl, buildQuery]
  rw [splitOnChar_joinAmp _ (by simpa using hne) (by
    intro f hf c hc
    rw [List.mem_map] at hf
    obtain ⟨kv, hkv, hfeq⟩ := hf
    subst hfeq
    rcases List.mem_append.mp hc with h1 | h1
    · exact ((important_key_facts kv.1 (hprops kv hkv).1).2 c h1).2.2.1
    · rcases List.mem_cons.mp h1 with h2 | h2
      · subst h2; decide
      · exact (pyQuote_char_facts kv.2 c h2).2.2.1)]
  induction clean with
  | nil => rfl
  | cons kv rest ih =>
    rw [List.map_cons, List.filterMap_cons]
    have hstep := field_roundtrip kv.1 kv.2 (hprops kv (by simp)).1
      (hprops kv (by simp)).2
    rw [hstep]
    by_cases hr : rest = []
    · subst hr
      simp
    · rw [ih (fun x hx => hprops x (List.mem_cons_of_mem _ hx)) hr]

theorem foldl_insertQS_fresh (kvs : List (List Char × List Char)) :
    ∀ acc : List (List Char × List (List Char)),
    (∀ kv ∈ kvs, kv.1 ∉ acc.map Prod.fst) →
    ((kvs.map Prod.fst).Nodup) →
    kvs.foldl (fun acc kv => insertQS acc kv.1 kv.2) acc =
      acc ++ kvs.map (fun kv => (kv.1, [kv.2])) := by
  induction kvs with
  | nil => intro acc _ _; simp
  | cons kv rest ih =>
    intro acc hfresh hnd
    rw [List.foldl_cons, insertQS_fresh acc kv.1 kv.2 (hfresh kv (by simp))]
    rw [List.map_cons, List.nodup_cons] at hnd
    rw [ih (acc ++ [(kv.1, [kv.2])]) (by
      intro x hx
      rw [List.map_append, List.mem_append]
      intro hor
      rcases hor with h1 | h1
      · exact hfresh x (List.mem_cons_of_mem _ hx) h1
      · simp only [List.map_cons, List.map_nil, List.mem_singleton] at h1
        exact hnd.1 (h1 ▸ List.mem_map_of_mem Prod.fst hx)) hnd.2]
    simp

theorem filterMap_clean_map (clean : List (List Char × List Char))
    (hprops : ∀ kv ∈ clean, asciiLower kv.1 ∈ importantParams) :
    List.filterMap
      (fun kv =>
        if asciiLower kv.1 ∈ importantParams then
          match kv.2 with
          | v :: _ => some (kv.1, v)
          | [] => none
        else none)
      (clean.map (fun kv => (kv.1, [kv.2]))) = clean := by
  induction clean with
  | nil => rfl
  | cons kv rest ih =>
    rw [List.map_cons, List.filterMap_cons]
    simp only
    rw [if_pos (hprops kv (by simp))]
    rw [ih (fun x hx => hprops x (List.mem_cons_of_mem _ hx))]

theorem cleanParams_buildQuery (clean : List (List Char × List Char))
    (hprops : ∀ kv ∈ clean, asciiLower kv.1 ∈ importantParams ∧ kv.2 ≠ [])
    (hnd : (clean.map Prod.fst).Nodup) (hne : clean ≠ []) :
    cleanParams (buildQuery clean) = clean := by
  have hqs : parse_qs (buildQuery clean) =
      clean.map (fun kv => (kv.1, [kv.2])) := by
    rw [parse_qs, parse_qsl_buildQuery clean hprops hne]
    rw [foldl_insertQS_fresh clean [] (by simp) hnd]
    simp
  rw [cleanParams, hqs]
  exact filterMap_clean_map clean (fun x hx => (hprops x hx).1)

theorem gt32_char_facts (c : Char) (h : 32 < c.toNat) :
    ((!(c == '\t' || c == '\n' || c == '\r')) = true) ∧ isC0OrSpace c = false := by
  have h1 : c ≠ '\t' := by
    intro he
    rw [he] at h
    exact absurd h (by decide)
  have h2 : c ≠ '\n' := by
    intro he
    rw [he] at h
    exact absurd h (by decide)
  have h3 : c ≠ '\r' := by
    intro he
    rw [he] at h
    exact absurd h (by decide)
  constructor
  · simp [h1, h2, h3]
  · simp only [isC0OrSpace, decide_eq_false_iff_not]
    omega

theorem schemeCh_ne (c : Char) (h : schemeCh c = true) :
    c ≠ ':' ∧ c ≠ '\t' ∧ c ≠ '\n' ∧ c ≠ '\r' := by
  refine ⟨?_, ?_, ?_, ?_⟩ <;>
    · intro he
      rw [he] at h
      exact absurd h (by decide)

theorem splitScheme_rebuilt (S R : List Char) (hS : S ≠ [])
    (hSch : S.all schemeCh = true) (hSh : ∀ c ∈ S.head?, c.isAlpha = true) :
    splitScheme (S ++ ':' :: R) = (asciiLower S, R) := by
  rw [List.all_eq_true] at hSch
  rw [splitScheme]
  have hidx : List.findIdx? (fun c => c == ':') (S ++ ':' :: R) = some S.length := by
    have h := findIdx?_colon_append S R 0 (fun c hc => by
      simp only [beq_eq_false_iff_ne, ne_eq]
      exact (schemeCh_ne c (hSch c hc)).1)
    rw [Nat.add_zero] at h
    exact h
  simp only [hidx]
  have hcond : (decide (0 < S.length) &&
      ((S ++ ':' :: R).take S.length).all schemeCh &&
      (match (S ++ ':' :: R).head? with
        | some c => c.isAlpha
        | none => false)) = true := by
    rw [List.take_left]
    cases S with
    | nil => exact absurd rfl hS
    | cons a t =>
      simp only [List.cons_append, List.head?_cons]
      rw [Bool.and_eq_true, Bool.and_eq_true]
      refine ⟨⟨by simp, ?_⟩, hSh a rfl⟩
      rw [List.all_eq_true]
      exact fun x hx => hSch x hx
  rw [if_pos hcond, List.take_left]
  have hdrop : (S ++ ':' :: R).drop (S.length + 1) = R := by
    have : S ++ ':' :: R = (S ++ [':']) ++ R := by simp
    rw [this]
    have hlen : S.length + 1 = (S ++ [':']).length := by simp
    rw [hlen, List.drop_left]
  rw [hdrop]

theorem urlparse_rebuilt (S N P q' Qp : List Char)
    (hQ : (Qp = [] ∧ q' = []) ∨ (Qp = '?' :: q' ∧ q' ≠ []))
    (hS : S ≠ []) (hSch : S.all schemeCh = true)
    (hSh : ∀ c ∈ S.head?, c.isAlpha = true)
    (hN : ∀ c ∈ N, notNetlocEnd c = true ∧ 32 < c.toNat)
    (hbr : bracketsBad N = false)
    (hP : ∀ c ∈ P, c ≠ '?' ∧ c ≠ '#' ∧ 32 < c.toNat)
    (hPh : P.head? = some '/')
    (hq' : ∀ c ∈ q', c ≠ '#' ∧ 32 < c.toNat)
    (hsemi : (usesParams.contains (asciiLower S) && P.contains ';') = false) :
    urlparse (S ++ ':' :: '/' :: '/' :: (N ++ (P ++ Qp))) =
      some ⟨asciiLower S, true, N, P, [], q', []⟩ := by
  have hPne : P ≠ [] := by
    intro he
    rw [he] at hPh
    exact Option.noConfusion hPh
  obtain ⟨Pt, hPcons⟩ : ∃ Pt, P = '/' :: Pt := by
    cases P with
    | nil => exact absurd rfl hPne
    | cons a t =>
      rw [List.head?_cons, Option.some.injEq] at hPh
      exact ⟨t, by rw [hPh]⟩
  rw [List.all_eq_true] at hSch
  -- the pre-processing is the identity on the rebuilt string
  have hpre : urlPre (S ++ ':' :: '/' :: '/' :: (N ++ (P ++ Qp))) =
      S ++ ':' :: '/' :: '/' :: (N ++ (P ++ Qp)) := by
    apply urlPre_id
    · intro c hc
      simp only [List.mem_append, List.mem_cons] at hc
      rcases hc with h | h | h | h | h | h | h
      · have hf := schemeCh_ne c (hSch c h)
        simp [hf.2.1, hf.2.2.1, hf.2.2.2]
      · subst h; decide
      · subst h; decide
      · subst h; decide
      · exact (gt32_char_facts c (hN c h).2).1
      · exact (gt32_char_facts c (hP c h).2.2).1
      · rcases hQ with ⟨hqp, _⟩ | ⟨hqp, _⟩
        · rw [hqp] at h
          exact absurd h (List.not_mem_nil c)
        · rw [hqp] at h
          rcases List.mem_cons.mp h with h3 | h3
          · subst h3; decide
          · exact (gt32_char_facts c (hq' c h3).2).1
    · intro c hc
      cases S with
      | nil => exact absurd rfl hS
      | cons a t =>
        simp only [List.cons_append, List.head?_cons, Option.mem_some_iff] at hc
        subst hc
        exact (gt32_char_facts a (isAlpha_gt32 a (hSh a rfl))).2
    · intro c hc
      have hPQ : P ++ Qp ≠ [] := by
        intro hcon
        rw [List.append_eq_nil] at hcon
        exact hPne hcon.1
      have hrw : (S ++ ':' :: '/' :: '/' :: (N ++ (P ++ Qp))).getLast? =
          (P ++ Qp).getLast? := by
        rw [List.getLast?_append_of_ne_nil S (List.cons_ne_nil _ _)]
        rw [show (':' :: '/' :: '/' :: (N ++ (P ++ Qp))) =
          [':', '/', '/'] ++ (N ++ (P ++ Qp)) from rfl]
        rw [List.getLast?_append_of_ne_nil _ (by
          intro hcon
          rw [List.append_eq_nil] at hcon
          exact hPQ hcon.2)]
        rw [List.getLast?_append_of_ne_nil _ hPQ]
      rw [hrw] at hc
      rcases hQ with ⟨hqp, _⟩ | ⟨hqp, hqne⟩
      · rw [hqp, List.append_nil] at hc
        have hmem : c ∈ P := List.mem_of_mem_getLast? hc
        exact (gt32_char_facts c (hP c hmem).2.2).2
      · rw [hqp] at hc
        rw [List.getLast?_append_of_ne_nil _ (List.cons_ne_nil _ _)] at hc
        rw [show ('?' :: q') = ['?'] ++ q' from rfl] at hc
        rw [List.getLast?_append_of_ne_nil _ hqne] at hc
        have hmem : c ∈ q' := List.mem_of_mem_getLast? hc
        exact (gt32_char_facts c (hq' c hmem).2).2
  rw [urlparse, hpre]
  rw [splitScheme_rebuilt S _ hS (List.all_eq_true.mpr hSch) hSh]
  simp only
  have hpref : (("//".toList).isPrefixOf ('/' :: '/' :: (N ++ (P ++ Qp)))) = true := by
    simp [List.isPrefixOf]
  rw [if_pos hpref]
  simp only [List.drop_succ_cons, List.drop_zero]
  have hnet : splitNetloc (N ++ (P ++ Qp)) = (N, P ++ Qp) := by
    rw [splitNetloc, hPcons, List.cons_append]
    rw [takeWhile_append_all _ N '/' _ (fun a ha => (hN a ha).1) (by decide)]
    rw [dropWhile_append_all _ N '/' _ (fun a ha => (hN a ha).1) (by decide)]
  rw [hnet]
  simp only
  rw [if_neg (by rw [hbr]; simp)]
  have hfr : splitAtFirst '#' (P ++ Qp) = (P ++ Qp, []) := by
    apply splitAtFirst_no_sep
    intro a ha
    rcases List.mem_append.mp ha with h1 | h1
    · exact (hP a h1).2.1
    · rcases hQ with ⟨hqp, _⟩ | ⟨hqp, _⟩
      · rw [hqp] at h1
        exact absurd h1 (List.not_mem_nil a)
      · rw [hqp] at h1
        rcases List.mem_cons.mp h1 with h2 | h2
        · subst h2; decide
        · exact (hq' a h2).1
  rw [hfr]
  simp only
  have hqr : splitAtFirst '?' (P ++ Qp) = (P, q') := by
    rcases hQ with ⟨hqp, hq0⟩ | ⟨hqp, _⟩
    · rw [hqp, hq0, List.append_nil]
      exact splitAtFirst_no_sep '?' P (fun a ha => (hP a ha).1)
    · rw [hqp]
      exact splitAtFirst_append '?' P q' (fun a ha => (hP a ha).1)
  rw [hqr]
  simp only
  rw [if_neg (by rw [hsemi]; simp)]

theorem dropWhile_head_not (p : Char → Bool) (l : List Char) :
    ∀ c ∈ (l.dropWhile p).head?, p c = false := by
  induction l with
  | nil => intro c hc; exact absurd hc (by simp)
  | cons a rest ih =>
    rw [List.dropWhile_cons]
    split
    · exact ih
    · rename_i hpa
      intro c hc
      simp only [List.head?_cons, Option.mem_some_iff] at hc
      rw [← hc]
      cases hpb : p a with
      | false => rfl
      | true => exact absurd hpb hpa

theorem rstripSlash_idem (x : List Char) :
    rstripSlash (rstripSlash x) = rstripSlash x := by
  rw [rstripSlash, rstripSlash, List.reverse_reverse]
  rw [dropWhile_head_false _ _ (dropWhile_head_not _ _)]

theorem pathOrSlash_ne_nil (x : List Char) : pathOrSlash x ≠ [] := by
  rw [pathOrSlash]
  split
  · simp
  · rename_i h
    simpa using h

theorem pathOrSlash_rstrip_idem (p0 : List Char) :
    pathOrSlash (rstripSlash (pathOrSlash (rstripSlash p0))) =
      pathOrSlash (rstripSlash p0) := by
  cases h : rstripSlash p0 with
  | nil => decide
  | cons c rest =>
    have hidem : rstripSlash (c :: rest) = c :: rest := by
      rw [← h, rstripSlash_idem]
    have hpos : pathOrSlash (c :: rest) = c :: rest := by
      rw [pathOrSlash]
      rw [if_neg (by simp)]
    rw [hpos, hidem]
    exact hpos

theorem rstripSlash_isPre (x : List Char) :
    List.IsPrefix (rstripSlash x) x := by
  rw [rstripSlash]
  rw [← List.reverse_suffix]
  rw [List.reverse_reverse]
  exact List.dropWhile_suffix _

theorem pathOrSlash_head (p0 : List Char)
    (h : p0 = [] ∨ p0.head? = some '/') :
    (pathOrSlash (rstripSlash p0)).head? = some '/' := by
  cases hr : rstripSlash p0 with
  | nil => decide
  | cons c rest =>
    rw [pathOrSlash]
    rw [if_neg (by simp)]
    rcases h with h | h
    · subst h
      rw [show rstripSlash ([] : List Char) = [] from rfl] at hr
      exact absurd hr (by simp)
    · obtain ⟨t, ht⟩ := rstripSlash_isPre p0
      rw [hr] at ht
      cases p0 with
      | nil => simp at ht
      | cons a rest2 =>
        rw [List.head?_cons, Option.some.injEq] at h
        rw [List.cons_append] at ht
        rw [List.head?_cons, Option.some.injEq]
        rw [← h]
        exact (List.cons.injEq _ _ _ _ ▸ ht).1

theorem buildQuery_ne_nil (clean : List (List Char × List Char))
    (h : clean ≠ []) : buildQuery clean ≠ [] := by
  rw [buildQuery]
  cases clean with
  | nil => exact absurd rfl h
  | cons f fs =>
    cases fs with
    | nil =>
      rw [List.map_cons, List.map_nil, joinAmp]
      intro hcon
      rw [List.append_eq_nil] at hcon
      exact List.noConfusion hcon.2
    | cons g gs =>
      rw [List.map_cons, joinAmp]
      · intro hcon
        rw [List.append_eq_nil] at hcon
        exact List.noConfusion hcon.2
      · exact fun hcon => List.noConfusion hcon

theorem mem_joinAmp (fields : List (List Char)) (c : Char)
    (hc : c ∈ joinAmp fields) : (∃ f ∈ fields, c ∈ f) ∨ c = '&' := by
  induction fields with
  | nil => exact absurd hc (List.not_mem_nil c)
  | cons f fs ih =>
    cases fs with
    | nil => exact Or.inl ⟨f, by simp, hc⟩
    | cons g gs =>
      rw [joinAmp] at hc
      · rcases List.mem_append.mp hc with h1 | h1
        · exact Or.inl ⟨f, by simp, h1⟩
        · rcases List.mem_cons.mp h1 with h2 | h2
          · exact Or.inr h2
          · rcases ih h2 with ⟨f', hf', hcf'⟩ | h3
            · exact Or.inl ⟨f', List.mem_cons_of_mem _ hf', hcf'⟩
            · exact Or.inr h3
      · exact fun hcon => List.noConfusion hcon

theorem buildQuery_char_facts (q : List Char) :
    ∀ c ∈ buildQuery (cleanParams q), c ≠ '#' ∧ 32 < c.toNat := by
  intro c hc
  rw [buildQuery] at hc
  rcases mem_joinAmp _ c hc with ⟨f, hf, hcf⟩ | h
  · rw [List.mem_map] at hf
    obtain ⟨kv, hkv, hfeq⟩ := hf
    subst hfeq
    have hkf := important_key_facts kv.1 (cleanParams_mem_facts q kv hkv).1
    rcases List.mem_append.mp hcf with h1 | h1
    · exact ⟨(hkf.2 c h1).2.1, (hkf.2 c h1).1⟩
    · rcases List.mem_cons.mp h1 with h2 | h2
      · subst h2
        exact ⟨by decide, by decide⟩
      · have hq := pyQuote_char_facts kv.2 c h2
        exact ⟨hq.2.1, hq.1⟩
  · subst h
    exact ⟨by decide, by decide⟩

theorem normalize_fixpoint (p : UrlParts) (v : List Char)
    (hs : p.scheme ≠ [])
    (hsch : p.scheme.all schemeCh = true)
    (hsh : ∀ c ∈ p.scheme.head?, c.isAlpha = true)
    (hlow : asciiLower p.scheme = p.scheme)
    (hN : ∀ c ∈ p.netloc, notNetlocEnd c = true ∧ 32 < c.toNat)
    (hbr : bracketsBad p.netloc = false)
    (hP : ∀ c ∈ pathOrSlash (rstripSlash p.path),
      c ≠ '?' ∧ c ≠ '#' ∧ 32 < c.toNat)
    (hPh : (pathOrSlash (rstripSlash p.path)).head? = some '/')
    (hsemi : (usesParams.contains p.scheme &&
      (pathOrSlash (rstripSlash p.path)).contains ';') = false)
    (hv : v = p.scheme ++ "://".toList ++ p.netloc ++
      pathOrSlash (rstripSlash p.path) ++
      (if (buildQuery (cleanParams p.query)).isEmpty then []
       else '?' :: buildQuery (cleanParams p.query))) :
    normalize_url v = some v := by
  obtain ⟨a, S', hScons⟩ : ∃ a S', p.scheme = a :: S' := by
    cases hsp : p.scheme with
    | nil => exact absurd hsp hs
    | cons a t => exact ⟨a, t, rfl⟩
  set P := pathOrSlash (rstripSlash p.path) with hPdef
  set q' := buildQuery (cleanParams p.query) with hqdef
  have hQsplit : (q' = [] ∧
        v = p.scheme ++ ':' :: '/' :: '/' :: (p.netloc ++ (P ++ []))) ∨
      (q' ≠ [] ∧
        v = p.scheme ++ ':' :: '/' :: '/' :: (p.netloc ++ (P ++ '?' :: q'))) := by
    by_cases hq0 : q' = []
    · refine Or.inl ⟨hq0, ?_⟩
      rw [hv, if_pos (by rw [hq0]; rfl)]
      rw [show "://".toList = [':', '/', '/'] from rfl]
      simp [List.append_assoc]
    · refine Or.inr ⟨hq0, ?_⟩
      rw [hv, if_neg (by
        intro hcon
        apply hq0
        cases hql : q' with
        | nil => rfl
        | cons x xs => rw [hql] at hcon; exact absurd hcon (by simp))]
      rw [show "://".toList = [':', '/', '/'] from rfl]
      simp [List.append_assoc]
  have hvne : v ≠ [] := by
    rcases hQsplit with ⟨_, hveq⟩ | ⟨_, hveq⟩ <;>
      · rw [hveq, hScons]
        simp
  rw [normalize_url, if_neg (by simpa using hvne)]
  have hup : urlparse v = some ⟨p.scheme, true, p.netloc, P, [],
      (if q' = [] then [] else q'), []⟩ := by
    rcases hQsplit with ⟨hq0, hveq⟩ | ⟨hq0, hveq⟩
    · rw [hveq, if_pos hq0]
      have h := urlparse_rebuilt p.scheme p.netloc P [] []
        (Or.inl ⟨rfl, rfl⟩) hs hsch hsh hN hbr hP hPh
        (by intro c hc; exact absurd hc (List.not_mem_nil c))
        (by rw [hlow]; exact hsemi)
      rw [hlow] at h
      exact h
    · rw [hveq, if_neg hq0]
      have h := urlparse_rebuilt p.scheme p.netloc P q' ('?' :: q')
        (Or.inr ⟨rfl, hq0⟩) hs hsch hsh hN hbr hP hPh
        (fun c hc => buildQuery_char_facts p.query c (hqdef ▸ hc))
        (by rw [hlow]; exact hsemi)
      rw [hlow] at h
      exact h
  rw [hup]
  simp only
  have hPfix : pathOrSlash (rstripSlash P) = P := pathOrSlash_rstrip_idem p.path
  rw [hPfix]
  by_cases hq0 : q' = []
  · rw [if_pos hq0]
    have hclean : cleanParams ([] : List Char) = [] := rfl
    rw [hclean]
    have hbq : buildQuery ([] : List (List Char × List Char)) = [] := rfl
    rw [hbq]
    rw [if_pos (show ([] : List Char).isEmpty = true from rfl)]
    rcases hQsplit with ⟨_, hveq⟩ | ⟨hqne, _⟩
    · rw [Option.some.injEq, hveq]
      rw [show "://".toList = [':', '/', '/'] from rfl]
      simp [List.append_assoc]
    · exact absurd hq0 hqne
  · rw [if_neg hq0]
    have hclean2 : cleanParams q' = cleanParams p.query := by
      by_cases hcl : cleanParams p.query = []
      · exfalso
        apply hq0
        rw [hqdef, hcl]
        rfl
      · rw [hqdef]
        exact cleanParams_buildQuery (cleanParams p.query)
          (cleanParams_mem_facts p.query) (cleanParams_keys_nodup p.query) hcl
    rw [hclean2, ← hqdef]
    rw [if_neg (by
      intro hcon
      apply hq0
      cases hql : q' with
      | nil => rfl
      | cons x xs => rw [hql] at hcon; exact absurd hcon (by simp))]
    rcases hQsplit with ⟨hq00, _⟩ | ⟨_, hveq⟩
    · exact absurd hq00 hq0
    · rw [Option.some.injEq, hveq]
      rw [show "://".toList = [':', '/', '/'] from rfl]
      simp [List.append_assoc]

/-- C6 (amended): `normalize_url` is idempotent on well-formed absolute
URLs: whenever the input parses with a nonempty (already-lowercase)
scheme, an authority part whose netloc is bracket-balanced and free of
`/?#` and control characters, a path that is empty or absolute with
printable non-space characters and no `?`/`#` (and no `;` when the
scheme splits parameters), normalizing the normalized URL returns it
unchanged.  (Unrestricted idempotence is false: see the counterexample
`a:b` → `a://b` → `a://b/`, where the rebuilt `://` introduces an
authority that reparses differently.) -/
theorem normalize_url_idempotent_amended (u v : List Char) (p : UrlParts)
    (hp : urlparse u = some p)
    (hn : normalize_url u = some v)
    (hs : p.scheme ≠ [])
    (hsch : p.scheme.all schemeCh = true)
    (hsh : ∀ c ∈ p.scheme.head?, c.isAlpha = true)
    (hlow : asciiLower p.scheme = p.scheme)
    (hN : ∀ c ∈ p.netloc, notNetlocEnd c = true ∧ 32 < c.toNat)
    (hbr : bracketsBad p.netloc = false)
    (hP : ∀ c ∈ pathOrSlash (rstripSlash p.path),
      c ≠ '?' ∧ c ≠ '#' ∧ 32 < c.toNat)
    (hPh0 : p.path = [] ∨ p.path.head? = some '/')
    (hsemi : (usesParams.contains p.scheme &&
      (pathOrSlash (rstripSlash p.path)).contains ';') = false) :
    normalize_url v = some v := by
  by_cases hu : u.isEmpty = true
  · rw [normalize_url, if_pos hu] at hn
    rw [Option.some.injEq] at hn
    rw [← hn]
    rfl
  · have hu' : u.isEmpty = false := by
      cases h : u.isEmpty
      · rfl
      · exact absurd h hu
    rw [normalize_url] at hn
    rw [if_neg (by rw [hu']; simp)] at hn
    rw [hp] at hn
    simp only [Option.some.injEq] at hn
    exact normalize_fixpoint p v hs hsch hsh hlow hN hbr hP
      (pathOrSlash_head p.path hPh0) hsemi hn.symm

/-- Counterexample to C6 as stated: `normalize_url` is not idempotent
for every URL.  The scheme-only URL `a:b` normalizes to `a://b`
(the code unconditionally rebuilds with `://`), which re-normalizes to
`a://b/` — the empty path collapses to `/` only on the second pass,
so `normalize(normalize("a:b")) ≠ normalize("a:b")`. -/
theorem normalize_url_not_idempotent :
    normalize_url ("a:b".toList) = some ("a://b".toList) ∧
    normalize_url ("a://b".toList) = some ("a://b/".toList) ∧
    "a://b".toList ≠ "a://b/".toList :=
  ⟨by decide, by decide, by decide⟩

/-- Witness for C6's amended theorem at the spec-style input
`https://example.com/blog/?id=5&utm_source=x#frag`, whose normal form
`https://example.com/blog?id=5` is a fixed point of `normalize_url`. -/
theorem normalize_url_idempotent_amended_witness :
    normalize_url ("https://example.com/blog?id=5".toList) =
      some ("https://example.com/blog?id=5".toList) :=
  normalize_url_idempotent_amended
    ("https://example.com/blog/?id=5&utm_source=x#frag".toList)
    ("https://example.com/blog?id=5".toList)
    ⟨"https".toList, true, "example.com".toList, "/blog/".toList, [],
      "id=5&utm_source=x".toList, "frag".toList⟩
    (by decide) (by decide) (by decide) (by decide) (by decide) (by decide)
    (by decide) (by decide) (by decide) (by decide) (by decide)
